import Mathlib

/-
Verification of the Ambuda in-browser proofreading workbench
(prosemirror-editor.ts and proofer.js).

Strings are modelled as `List Char` (the sequence of code points); JS
numbers arising from parseInt are modelled as `Int`; the similarity
ratios computed by proofer.js are modelled as `ℚ`.
-/

namespace Ambuda

/-- Whitespace test used to model JS `trim` and XML inter-element whitespace. -/
def isWS (c : Char) : Bool := c = ' ' || c = '\n' || c = '\t' || c = '\r'

/-- Model of `String.prototype.trim` on the character-list view of strings. -/
def trimStr (s : List Char) : List Char :=
  ((s.dropWhile isWS).reverse.dropWhile isWS).reverse

/-- Model of `String.prototype.toLowerCase`, applied per character. -/
def lowerStr (s : List Char) : List Char := s.map Char.toLower

/-- The double-quote character, written via its code point. -/
def quotChar : Char := Char.ofNat 34

/-- The apostrophe character, written via its code point. -/
def aposChar : Char := Char.ofNat 39

/-- Characters of the entity replacing an ampersand. -/
def ampEntity : List Char := ['&', 'a', 'm', 'p', ';']

/-- Characters of the entity replacing a less-than sign. -/
def ltEntity : List Char := ['&', 'l', 't', ';']

/-- Characters of the entity replacing a greater-than sign. -/
def gtEntity : List Char := ['&', 'g', 't', ';']

/-- Characters of the entity replacing a double quote. -/
def quotEntity : List Char := ['&', 'q', 'u', 'o', 't', ';']

/-- Characters of the entity replacing an apostrophe. -/
def aposEntity : List Char := ['&', 'a', 'p', 'o', 's', ';']

/-- One global replacement pass: every occurrence of the character `c` is
replaced by the character list `r`.  Models `str.replace(/c/g, r)`. -/
def replaceChar (c : Char) (r : List Char) : List Char → List Char
  | [] => []
  | d :: ds => (if d = c then r else [d]) ++ replaceChar c r ds

/-- Embedding of `escapeXML` from prosemirror-editor.ts: five sequential
global replaces, in source order (amp, lt, gt, quot, apos). -/
def escapeXML (s : List Char) : List Char :=
  replaceChar aposChar aposEntity
    (replaceChar quotChar quotEntity
      (replaceChar '>' gtEntity
        (replaceChar '<' ltEntity
          (replaceChar '&' ampEntity s))))

/-- Per-character description of `escapeXML`; proved equal to it below. -/
def escChar (c : Char) : List Char :=
  if c = '&' then ampEntity
  else if c = '<' then ltEntity
  else if c = '>' then gtEntity
  else if c = quotChar then quotEntity
  else if c = aposChar then aposEntity
  else [c]

/-- Translation of a finished entity reference: the five XML entities map to
their characters, anything else is passed through literally. -/
def entName (buf : List Char) : List Char :=
  if buf = ['a', 'm', 'p'] then ['&']
  else if buf = ['l', 't'] then ['<']
  else if buf = ['g', 't'] then ['>']
  else if buf = ['q', 'u', 'o', 't'] then [quotChar]
  else if buf = ['a', 'p', 'o', 's'] then [aposChar]
  else '&' :: buf ++ [';']

/-- One character of the standard entity decoder: outside a reference an
ampersand opens one; inside a reference a semicolon closes it, a fresh
ampersand flushes the pending text literally, and other characters
accumulate. -/
def entStep : List Char × Option (List Char) → Char → List Char × Option (List Char)
  | (out, none), c => if c = '&' then (out, some []) else (out ++ [c], none)
  | (out, some buf), c =>
    if c = ';' then (out ++ entName buf, none)
    else if c = '&' then (out ++ '&' :: buf, some [])
    else (out, some (buf ++ [c]))

/-- Standard decoding of the five XML entities amp, lt, gt, quot, apos; all
other text is left unchanged (an unfinished reference is flushed literally).
This is both the spec-side decoder of claim C10 and the entity decoding
performed by the browser XML parser. -/
def decodeXMLEntities (s : List Char) : List Char :=
  match s.foldl entStep ([], none) with
  | (out, none) => out
  | (out, some buf) => out ++ '&' :: buf

/-- Characters that escapeXML never leaves in its output outside entities
(in fact it never leaves them in the output at all). -/
def isXMLSpecial (c : Char) : Bool :=
  c = '<' || c = '>' || c = quotChar || c = aposChar

/-- Inner loop of `levenshteinDistance` from proofer.js: computes the entries
of DP row `i` for columns `j = 1, ...` given the characters `ys` of str2 still
to process, the entries `prev = dp[i-1][j-1], dp[i-1][j], ...` of the previous
row, and the entry `left = dp[i][j-1]` just computed.  Candidate order follows
the source: deletion `dp[i-1][j]+1`, insertion `dp[i][j-1]+1`, substitution
`dp[i-1][j-1]+1`. -/
def levRowStep (c1 : Char) : List Char → List Nat → Nat → List Nat
  | y :: ys, diag :: up :: rest, left =>
    let cur := if c1 = y then diag else min (up + 1) (min (left + 1) (diag + 1))
    cur :: levRowStep c1 ys (up :: rest) cur
  | _, _, _ => []

/-- Outer loop of `levenshteinDistance`: one DP row per character of str1;
row `i` starts with `dp[i][0] = i`. -/
def levRows (s2 : List Char) : List Char → Nat → List Nat → List Nat
  | [], _, prev => prev
  | c :: cs, i, prev => levRows s2 cs (i + 1) ((i + 1) :: levRowStep c s2 prev (i + 1))

/-- Embedding of `levenshteinDistance` from proofer.js: the dynamic program
over prefixes of the two strings (row 0 is `0, 1, ..., len2`), returning
`dp[len1][len2]`, the last entry of the last row. -/
def levenshteinDistance (s1 s2 : List Char) : Nat :=
  (levRows s2 s1 0 (List.range (s2.length + 1))).getLastD 0

/-- Textbook edit distance by recursion on the leading characters, used as a
stepping stone between the DP table and the edit-script specification. -/
def lev : List Char → List Char → Nat
  | [], ys => ys.length
  | x :: xs, [] => (x :: xs).length
  | x :: xs, y :: ys =>
    if x = y then lev xs ys
    else 1 + min (lev xs ys) (min (lev (x :: xs) ys) (lev xs (y :: ys)))
  termination_by a b => a.length + b.length
  decreasing_by all_goals (simp; try omega)

/-- Helper for relating the DP rows to `lev`: the row of values
`lev u (w ++ p)` as `p` ranges over the prefixes of `ys`, in order. -/
def levRowFor (u : List Char) : List Char → List Char → List Nat
  | w, [] => [lev u w]
  | w, y :: ys => lev u w :: levRowFor u (w ++ [y]) ys

/-- Edit scripts: `Edits a b n` holds when `a` can be transformed into `b`
with exactly `n` single-character substitutions, deletions and insertions
(matching characters are kept for free).  This is the spec side of claim C5:
`levenshteinDistance a b` is the least such `n`. -/
inductive Edits : List Char → List Char → Nat → Prop
  | nil : Edits [] [] 0
  | keep (c : Char) {xs ys n} : Edits xs ys n → Edits (c :: xs) (c :: ys) n
  | subst (a b : Char) {xs ys n} : Edits xs ys n → Edits (a :: xs) (b :: ys) (n + 1)
  | del (a : Char) {xs ys n} : Edits xs ys n → Edits (a :: xs) ys (n + 1)
  | ins (b : Char) {xs ys n} : Edits xs ys n → Edits xs (b :: ys) (n + 1)

/-- Embedding of `similarityRatio` from proofer.js, with the real-number
arithmetic carried out in ℚ. -/
def similarityRatio (s1 s2 : List Char) : ℚ :=
  if s1 = s2 then 1
  else if s1 = [] ∨ s2 = [] then 0
  else 1 - (levenshteinDistance s1 s2 : ℚ) / (max s1.length s2.length : ℚ)

/-- OCR bounding box as parsed by `parseBoundingBoxes` in proofer.js. -/
structure BBox where
  x1 : Int
  y1 : Int
  x2 : Int
  y2 : Int
  text : List Char
deriving DecidableEq

/-- An OCR line as produced by `groupBoundingBoxesByLine`. -/
structure OCRLine where
  text : List Char
  boxes : List BBox
deriving DecidableEq

/-- Model of `Array.prototype.join` with a single space separator. -/
def joinSpace : List (List Char) → List Char
  | [] => []
  | [s] => s
  | s :: rest => s ++ ' ' :: joinSpace rest

/-- Sort comparator of `groupBoundingBoxesByLine`: boxes whose y1 differ by
less than the sensitivity 10 are compared by x1, otherwise by y1. -/
def boxCmp (a b : BBox) : Int :=
  let yDiff := a.y1 - b.y1
  if yDiff.natAbs < 10 then a.x1 - b.x1 else yDiff

/-- One insertion step of the sort: place `b` before the first element it
does not compare after. -/
def insertSorted (le : BBox → BBox → Bool) (b : BBox) : List BBox → List BBox
  | [] => [b]
  | c :: cs => if le b c then b :: c :: cs else c :: insertSorted le b cs

/-- The sorted copy of the boxes.  JS `Array.prototype.sort` with `boxCmp`
(an inconsistent comparator, so ECMAScript leaves the result order
implementation-defined up to permutation) is modelled by insertion sort with
a nonpositive comparator result as the order; every property proved below
holds for any permutation the JS sort may produce. -/
def sortBoxes (boxes : List BBox) : List BBox :=
  boxes.foldr (insertSorted (fun a b => boxCmp a b ≤ 0)) []

/-- Grouping loop of `groupBoundingBoxesByLine`: `cur` is the line being
built and `curY` the y1 of its first box.  The final `lines.push(currentLine)`
of the source is unconditional here because `cur` is never empty. -/
def groupLoop (curY : Int) (cur : List BBox) : List BBox → List (List BBox)
  | [] => [cur]
  | b :: bs =>
    if (b.y1 - curY).natAbs < 10 then groupLoop curY (cur ++ [b]) bs
    else cur :: groupLoop b.y1 [b] bs

/-- Embedding of `groupBoundingBoxesByLine` from proofer.js. -/
def groupBoundingBoxesByLine (boxes : List BBox) : List OCRLine :=
  match sortBoxes boxes with
  | [] => []
  | b :: bs =>
    (groupLoop b.y1 [b] bs).map (fun lineBoxes =>
      { text := joinSpace (lineBoxes.map (fun bx => bx.text)), boxes := lineBoxes })

/-- Loop over `boundingBoxLines` in `findBestMatchingBoundingBox`: an exact
match breaks out of the loop; otherwise the best line whose similarity
exceeds the running threshold is tracked. -/
def bestLineLoop (normalizedLine : List Char) :
    List OCRLine → Option OCRLine → ℚ → Option OCRLine
  | [], best, _ => best
  | l :: ls, best, bestSim =>
    let lineTextNormalized := trimStr (lowerStr l.text)
    if lineTextNormalized = normalizedLine then some l
    else
      let sim := similarityRatio normalizedLine lineTextNormalized
      if bestSim < sim then bestLineLoop normalizedLine ls (some l) sim
      else bestLineLoop normalizedLine ls best bestSim

/-- Loop over the boxes of the chosen line: an exact (lower-cased) match
returns immediately; otherwise the best box whose similarity exceeds the
running threshold is tracked. -/
def bestWordLoop (normalizedWord : List Char) :
    List BBox → Option BBox → ℚ → Option BBox
  | [], best, _ => best
  | b :: bs, best, bestSim =>
    let boxText := lowerStr b.text
    if boxText = normalizedWord then some b
    else
      let sim := similarityRatio normalizedWord boxText
      if bestSim < sim then bestWordLoop normalizedWord bs (some b) sim
      else bestWordLoop normalizedWord bs best bestSim

/-- Fuzzy phase of `findBestMatchingBoundingBoxFallback`. -/
def fallbackFuzzyLoop (normalizedWord : List Char) :
    List BBox → Option BBox → ℚ → Option BBox
  | [], best, _ => best
  | b :: bs, best, bestSim =>
    let sim := similarityRatio normalizedWord (lowerStr b.text)
    if bestSim < sim then fallbackFuzzyLoop normalizedWord bs (some b) sim
    else fallbackFuzzyLoop normalizedWord bs best bestSim

/-- Embedding of `findBestMatchingBoundingBoxFallback` from proofer.js: an
exact scan over all boxes, then a fuzzy scan with threshold 0.7. -/
def findBestMatchingBoundingBoxFallback (boundingBoxes : List BBox)
    (normalizedWord : List Char) : Option BBox :=
  match boundingBoxes.find? (fun b => lowerStr b.text = normalizedWord) with
  | some b => some b
  | none => fallbackFuzzyLoop normalizedWord boundingBoxes none (7 / 10 : ℚ)

/-- Embedding of `findBestMatchingBoundingBox` from proofer.js.  The cursor
context supplies `word` and `lineText`; `boundingBoxLines` and
`boundingBoxes` are the component state read by the function.  The float
thresholds 0.7 are modelled as the rational 7/10. -/
def findBestMatchingBoundingBox (boundingBoxLines : List OCRLine)
    (boundingBoxes : List BBox) (word lineText : List Char) : Option BBox :=
  let normalizedWord := trimStr word
  let normalizedLine := trimStr lineText
  if normalizedWord = [] ∨ normalizedLine = [] then none
  else
    match bestLineLoop normalizedLine boundingBoxLines none (7 / 10 : ℚ) with
    | none => findBestMatchingBoundingBoxFallback boundingBoxes normalizedWord
    | some bestLine => bestWordLoop normalizedWord bestLine.boxes none (7 / 10 : ℚ)

/-- Model of the XMLView editor state (prosemirror-editor.ts): the document
is a single codeblock holding at most one text node. -/
structure XMLViewState where
  codeblock : Option (List Char)
deriving DecidableEq

/-- Document built by the XMLView constructor from its initial content: a
text node is created only when the content is nonempty (the source tests
truthiness of the string). -/
def xmlViewInit (initialContent : List Char) : XMLViewState :=
  { codeblock := if initialContent = [] then none else some initialContent }

/-- Embedding of `XMLView.setText`: identical construction to the
constructor path. -/
def xmlViewSetText (text : List Char) : XMLViewState :=
  { codeblock := if text = [] then none else some text }

/-- Embedding of `XMLView.getText`: the text content of the document. -/
def xmlViewGetText (st : XMLViewState) : List Char :=
  match st.codeblock with
  | none => []
  | some t => t

/-- Set of the four inline marks of the custom schema. -/
structure MarkSet where
  error : Bool
  fix : Bool
  ref : Bool
  flag : Bool
deriving DecidableEq

/-- The empty mark set. -/
def noMarks : MarkSet := ⟨false, false, false, false⟩

/-- A text run of a block: a nonempty piece of text with the marks applied
to it.  ProseMirror text nodes with their mark sets. -/
structure InlineRun where
  text : List Char
  marks : MarkSet
deriving DecidableEq

/-- A block node of the custom schema with its attributes and inline
content. -/
structure Block where
  type : List Char
  text : Option (List Char)
  n : Option (List Char)
  mark : Option (List Char)
  lang : Option (List Char)
  merge_next : Bool
  content : List InlineRun
deriving DecidableEq

/-- The default empty paragraph block (`schema.node('block', { type: 'p' })`). -/
def emptyPBlock : Block :=
  { type := ['p'], text := none, n := none, mark := none, lang := none,
    merge_next := false, content := [] }

/-- Visual block editor state for the insert and delete operations: the
document's blocks and the index of the block containing the selection.
In the flat schema (doc holds blocks, blocks hold inline content) a cursor
always sits inside some block, so the selection is modelled as that block's
index. -/
structure EditorSt where
  blocks : List Block
  sel : Nat
deriving DecidableEq

/-- Embedding of `insertBlock`: a new empty paragraph block is inserted after
the block containing the selection and the cursor moves into it. -/
def insertBlock (st : EditorSt) : EditorSt :=
  { blocks := st.blocks.insertIdx (st.sel + 1) emptyPBlock, sel := st.sel + 1 }

/-- Embedding of `deleteActiveBlock`: a no-op when the document has exactly
one block; otherwise the block containing the selection is deleted and the
selection is clamped to a valid block (`Selection.near` after the delete). -/
def deleteActiveBlock (st : EditorSt) : EditorSt :=
  if st.blocks.length = 1 then st
  else { blocks := st.blocks.eraseIdx st.sel,
         sel := min st.sel (st.blocks.length - 2) }

/-- The editor operations of claim C8. -/
inductive EditorOp where
  | insert : EditorOp
  | delete : EditorOp
deriving DecidableEq

/-- Application of one editor operation. -/
def applyOp (st : EditorSt) : EditorOp → EditorSt
  | EditorOp.insert => insertBlock st
  | EditorOp.delete => deleteActiveBlock st

/-- Application of a sequence of editor operations, first operation first. -/
def applyOps (ops : List EditorOp) (st : EditorSt) : EditorSt :=
  ops.foldl applyOp st

/-- Validity of an editor state: the selection sits inside some block (which
also forces the document to be nonempty). -/
def EditorSt.WF (st : EditorSt) : Prop := st.sel < st.blocks.length

/-- An XML DOM node as produced by the browser `DOMParser` on `text/xml`
input: a text node (entities already decoded) or an element with its
attributes and children. -/
inductive XNode where
  | text (s : List Char) : XNode
  | elem (tag : List Char) (attrs : List (List Char × List Char))
      (children : List XNode) : XNode

/-- Is this node an element?  Models `Node.ELEMENT_NODE` checks and the
`Element.children` collection. -/
def isElemNode : XNode → Bool
  | XNode.text _ => false
  | XNode.elem _ _ _ => true

/-- The element children of a node list (`pageElement.children`). -/
def elemChildren (ns : List XNode) : List XNode := ns.filter isElemNode

/-- Name characters accepted by the modelled XML parser for tag and
attribute names. -/
def isNameChar (c : Char) : Bool := c.isAlpha || c.isDigit || c = '-'

/-- Tokens of the XML lexer: text runs (entity-decoded) and tags. -/
inductive XMLToken where
  | text (s : List Char) : XMLToken
  | tagOpen (name : List Char) (attrs : List (List Char × List Char)) : XMLToken
  | tagClose (name : List Char) : XMLToken
  | tagSelfClose (name : List Char) (attrs : List (List Char × List Char)) : XMLToken

/-- Lexer mode: accumulating text, or inside a tag after `<`. -/
inductive LexMode where
  | inText (buf : List Char) : LexMode
  | inTag (buf : List Char) : LexMode

/-- Lexer state: tokens emitted so far (in order) and the current mode. -/
structure LexSt where
  toks : List XMLToken
  mode : LexMode

/-- Emit a pending text buffer as a token (nothing for an empty buffer);
entities are decoded at this point, as the browser parser does. -/
def flushText (buf : List Char) : List XMLToken :=
  if buf = [] then [] else [XMLToken.text (decodeXMLEntities buf)]

/-- States of the attribute-list scanner inside a tag. -/
inductive AttrMode where
  | between : AttrMode
  | name (nm : List Char) : AttrMode
  | afterEq (nm : List Char) : AttrMode
  | value (nm : List Char) (buf : List Char) : AttrMode

/-- One character of the attribute-list scanner.  Accepts the XML form
`name="value"` separated by whitespace; attribute values are entity-decoded
when the closing quote is seen. -/
def attrStep : Option (List (List Char × List Char) × AttrMode) → Char →
    Option (List (List Char × List Char) × AttrMode)
  | none, _ => none
  | some (acc, AttrMode.between), c =>
    if isWS c then some (acc, AttrMode.between)
    else if isNameChar c then some (acc, AttrMode.name [c])
    else none
  | some (acc, AttrMode.name nm), c =>
    if isNameChar c then some (acc, AttrMode.name (nm ++ [c]))
    else if c = '=' then some (acc, AttrMode.afterEq nm)
    else none
  | some (acc, AttrMode.afterEq nm), c =>
    if c = quotChar then some (acc, AttrMode.value nm [])
    else none
  | some (acc, AttrMode.value nm buf), c =>
    if c = quotChar then some (acc ++ [(nm, decodeXMLEntities buf)], AttrMode.between)
    else some (acc, AttrMode.value nm (buf ++ [c]))

/-- Parse the attribute portion of a tag. -/
def parseAttrs (s : List Char) : Option (List (List Char × List Char)) :=
  match s.foldl attrStep (some ([], AttrMode.between)) with
  | some (acc, AttrMode.between) => some acc
  | _ => none

/-- Parse the content of a tag (the characters between `<` and `>`) into a
token: a closing tag, a self-closing tag, or an opening tag with
attributes. -/
def parseTagContent (content : List Char) : Option XMLToken :=
  match content with
  | [] => none
  | c :: rest =>
    if c = '/' then
      if rest ≠ [] ∧ rest.all isNameChar then some (XMLToken.tagClose rest) else none
    else
      let nm := (c :: rest).takeWhile isNameChar
      let after := (c :: rest).dropWhile isNameChar
      if nm = [] then none
      else
        match after.getLast? with
        | some d =>
          if d = '/' then
            match parseAttrs after.dropLast with
            | some attrs => some (XMLToken.tagSelfClose nm attrs)
            | none => none
          else
            match parseAttrs after with
            | some attrs => some (XMLToken.tagOpen nm attrs)
            | none => none
        | none => some (XMLToken.tagOpen nm [])

/-- One character of the XML lexer. -/
def lexStep : Option LexSt → Char → Option LexSt
  | none, _ => none
  | some st, c =>
    match st.mode with
    | LexMode.inText buf =>
      if c = '<' then some ⟨st.toks ++ flushText buf, LexMode.inTag []⟩
      else some ⟨st.toks, LexMode.inText (buf ++ [c])⟩
    | LexMode.inTag buf =>
      if c = '>' then
        match parseTagContent buf with
        | some tok => some ⟨st.toks ++ [tok], LexMode.inText []⟩
        | none => none
      else if c = '<' then none
      else some ⟨st.toks, LexMode.inTag (buf ++ [c])⟩

/-- Tokenize an XML string; fails on malformed tags or an unterminated
tag. -/
def lexXML (s : List Char) : Option (List XMLToken) :=
  match s.foldl lexStep (some ⟨[], LexMode.inText []⟩) with
  | none => none
  | some st =>
    match st.mode with
    | LexMode.inText buf => some (st.toks ++ flushText buf)
    | LexMode.inTag _ => none

/-- An open element while building the DOM tree. -/
structure XFrame where
  tag : List Char
  attrs : List (List Char × List Char)
  children : List XNode

/-- DOM building state: the open elements (innermost first) and the
completed top-level nodes. -/
structure DomSt where
  stack : List XFrame
  roots : List XNode

/-- Append a completed node to the innermost open element, or to the
top level. -/
def domAppend (st : DomSt) (node : XNode) : DomSt :=
  match st.stack with
  | [] => { stack := [], roots := st.roots ++ [node] }
  | fr :: rest =>
    { stack := ⟨fr.tag, fr.attrs, fr.children ++ [node]⟩ :: rest, roots := st.roots }

/-- One token of the DOM builder.  Text outside the root must be whitespace
(the browser reports an error otherwise) and is dropped; a closing tag must
match the innermost open element. -/
def domStep : Option DomSt → XMLToken → Option DomSt
  | none, _ => none
  | some st, XMLToken.text s =>
    match st.stack with
    | [] => if s.all isWS then some st else none
    | fr :: rest =>
      some { stack := ⟨fr.tag, fr.attrs, fr.children ++ [XNode.text s]⟩ :: rest,
             roots := st.roots }
  | some st, XMLToken.tagOpen nm attrs =>
    some { stack := ⟨nm, attrs, []⟩ :: st.stack, roots := st.roots }
  | some st, XMLToken.tagSelfClose nm attrs =>
    some (domAppend st (XNode.elem nm attrs []))
  | some st, XMLToken.tagClose nm =>
    match st.stack with
    | [] => none
    | fr :: rest =>
      if fr.tag = nm then
        some (domAppend ⟨rest, st.roots⟩ (XNode.elem fr.tag fr.attrs fr.children))
      else none

/-- Model of the browser `DOMParser` on `text/xml` input: the document
element of the parsed document, or none when the input is not well-formed
(which the source detects through the `parsererror` element). -/
def domParse (s : List Char) : Option XNode :=
  match lexXML s with
  | none => none
  | some toks =>
    match toks.foldl domStep (some ⟨[], []⟩) with
    | none => none
    | some st =>
      match st.stack, st.roots with
      | [], [root] => some root
      | _, _ => none

/-- The tag name page. -/
def pageTag : List Char := ['p', 'a', 'g', 'e']

/-- The tag and mark name error. -/
def errorTag : List Char := ['e', 'r', 'r', 'o', 'r']

/-- The tag and mark name fix. -/
def fixTag : List Char := ['f', 'i', 'x']

/-- The tag and mark name ref. -/
def refTag : List Char := ['r', 'e', 'f']

/-- The tag and mark name flag. -/
def flagTag : List Char := ['f', 'l', 'a', 'g']

/-- The default block type p. -/
def pTag : List Char := ['p']

/-- The attribute name text. -/
def textAttr : List Char := ['t', 'e', 'x', 't']

/-- The attribute name n. -/
def nAttr : List Char := ['n']

/-- The attribute name mark. -/
def markAttr : List Char := ['m', 'a', 'r', 'k']

/-- The attribute name lang. -/
def langAttr : List Char := ['l', 'a', 'n', 'g']

/-- The attribute name merge-next. -/
def mergeNextAttr : List Char := ['m', 'e', 'r', 'g', 'e', '-', 'n', 'e', 'x', 't']

/-- The attribute value true. -/
def trueStr : List Char := ['t', 'r', 'u', 'e']

mutual

/-- Embedding of the local `serializeNode` helper of `parseInlineContent`:
unknown inline elements are re-serialized as plain text, dropping their
attributes and lowercasing their tag names. -/
def serializeNode : XNode → List Char
  | XNode.text s => s
  | XNode.elem tag _ children =>
    ('<' :: lowerStr tag) ++ ('>' :: serializeNodes children)
      ++ ('<' :: '/' :: lowerStr tag) ++ ['>']

/-- List version of `serializeNode` (children concatenation). -/
def serializeNodes : List XNode → List Char
  | [] => []
  | n :: ns => serializeNode n ++ serializeNodes ns

end

/-- Adding a named mark to a mark set (`schema.mark(tagName).addToSet`). -/
def addMark (m : MarkSet) (tag : List Char) : MarkSet :=
  if tag = errorTag then { m with error := true }
  else if tag = fixTag then { m with fix := true }
  else if tag = flagTag then { m with flag := true }
  else if tag = refTag then { m with ref := true }
  else m

/-- Is this tag one of the four visually rendered marks?  Condition order
follows the source: error, fix, flag, ref. -/
def isMarkTag (tag : List Char) : Bool :=
  tag = errorTag || tag = fixTag || tag = flagTag || tag = refTag

mutual

/-- Embedding of the `traverse` helper of `parseInlineContent`: text nodes
become text runs with the current marks, mark elements recurse with the mark
added, and any other element is re-serialized as literal text. -/
def parseInlineNode (marks : MarkSet) : XNode → List InlineRun
  | XNode.text s => if s = [] then [] else [⟨s, marks⟩]
  | XNode.elem tag attrs children =>
    let tagName := lowerStr tag
    if isMarkTag tagName then
      parseInlineNodes (addMark marks tagName) children
    else
      let serialized := serializeNode (XNode.elem tag attrs children)
      if serialized = [] then [] else [⟨serialized, marks⟩]

/-- List version of `parseInlineNode` (childNodes iteration). -/
def parseInlineNodes (marks : MarkSet) : List XNode → List InlineRun
  | [] => []
  | n :: ns => parseInlineNode marks n ++ parseInlineNodes marks ns

end

/-- Embedding of `parseInlineContent` applied to the child nodes of a block
element. -/
def parseInlineContent (children : List XNode) : List InlineRun :=
  parseInlineNodes noMarks children

/-- Joining of adjacent text nodes carrying the same marks, performed by
ProseMirror `Fragment.fromArray` when the block node is created. -/
def normalizeRuns : List InlineRun → List InlineRun
  | [] => []
  | r :: rest =>
    match normalizeRuns rest with
    | [] => [r]
    | r2 :: rest2 =>
      if r.marks = r2.marks then ⟨r.text ++ r2.text, r.marks⟩ :: rest2
      else r :: r2 :: rest2

/-- Model of `Element.getAttribute`: the value of the first attribute with
the given name, if present. -/
def getAttr (attrs : List (List Char × List Char)) (nm : List Char) :
    Option (List Char) :=
  (attrs.find? (fun p => p.1 = nm)).map (fun p => p.2)

/-- Embedding of the per-element body of the `parseXMLToDoc` loop: the block
built from one child element of the page.  This function is applied to
element nodes only; the text case is unreachable. -/
def blockOfElem : XNode → Block
  | XNode.text _ => emptyPBlock
  | XNode.elem tag attrs children =>
    { type := lowerStr tag,
      text := getAttr attrs textAttr,
      n := getAttr attrs nAttr,
      mark := getAttr attrs markAttr,
      lang := getAttr attrs langAttr,
      merge_next := getAttr attrs mergeNextAttr = some trueStr,
      content := normalizeRuns (parseInlineContent children) }

/-- The document holding a single empty paragraph block. -/
def defaultDoc : List Block := [emptyPBlock]

instance : DecidableEq (Except Unit (List Block)) := fun a b =>
  match a, b with
  | Except.ok x, Except.ok y => decidable_of_iff (x = y) (by simp)
  | Except.error x, Except.error y => isTrue (by cases x; cases y; rfl)
  | Except.ok _, Except.error _ => isFalse (by simp)
  | Except.error _, Except.ok _ => isFalse (by simp)

/-- Embedding of `parseXMLToDoc` from prosemirror-editor.ts.  Empty or
whitespace-only input yields the default document; a parse failure or a
non-page root throws (modelled as `Except.error`); otherwise every child
element of the page becomes a block, with the default document when there
are none. -/
def parseXMLToDoc (xmlString : List Char) : Except Unit (List Block) :=
  if trimStr xmlString = [] then Except.ok defaultDoc
  else
    match domParse xmlString with
    | none => Except.error ()
    | some (XNode.text _) => Except.error ()
    | some (XNode.elem tag _ children) =>
      if lowerStr tag = pageTag then
        match (elemChildren children).map blockOfElem with
        | [] => Except.ok defaultDoc
        | b :: bs => Except.ok (b :: bs)
      else Except.error ()

/-- The document the visual block editor constructor starts from: the parse
of the initial content, or the default document when parsing throws. -/
def initialBlockEditorDoc (initialContent : List Char) : List Block :=
  match parseXMLToDoc initialContent with
  | Except.ok d => d
  | Except.error _ => defaultDoc

/-- Wrapping of serialized inline text in a mark tag
(`<mark>` ... `</mark>`). -/
def wrapTag (tag : List Char) (s : List Char) : List Char :=
  ('<' :: tag) ++ ('>' :: s) ++ ('<' :: '/' :: tag) ++ ['>']

/-- The mark names carried by a text node, in schema rank order (error, fix,
ref, flag), which is the order `child.marks` presents them. -/
def marksList (m : MarkSet) : List (List Char) :=
  (if m.error then [errorTag] else []) ++ (if m.fix then [fixTag] else [])
    ++ (if m.ref then [refTag] else []) ++ (if m.flag then [flagTag] else [])

/-- Embedding of the text-node case of `serializeInlineContent`: the escaped
text wrapped in each of its marks in order (`child.marks.forEach`). -/
def serializeRun (r : InlineRun) : List Char :=
  (marksList r.marks).foldl (fun acc tg => wrapTag tg acc) (escapeXML r.text)

/-- Embedding of `serializeInlineContent` over a block's text runs. -/
def serializeInlineContent (content : List InlineRun) : List Char :=
  (content.map serializeRun).flatten

/-- One serialized attribute, `name="escaped value"`. -/
def attrPart (nm v : List Char) : List Char :=
  nm ++ ('=' :: quotChar :: escapeXML v) ++ [quotChar]

/-- The serialized attribute chunks of a block, in source order; an
attribute is emitted only when its value is truthy (non-null, nonempty). -/
def blockAttrParts (b : Block) : List (List Char) :=
  (match b.text with
    | some t => if t = [] then [] else [attrPart textAttr t]
    | none => [])
  ++ (match b.n with
    | some t => if t = [] then [] else [attrPart nAttr t]
    | none => [])
  ++ (match b.mark with
    | some t => if t = [] then [] else [attrPart markAttr t]
    | none => [])
  ++ (match b.lang with
    | some t => if t = [] then [] else [attrPart langAttr t]
    | none => [])
  ++ (if b.merge_next then [attrPart mergeNextAttr trueStr] else [])

/-- The serialized tag of a block (`block.attrs.type || 'p'`). -/
def typeOf (b : Block) : List Char := if b.type = [] then pTag else b.type

/-- Embedding of the per-block body of `serializeDocToXML`. -/
def serializeBlock (b : Block) : List Char :=
  let attrsStr :=
    if blockAttrParts b = [] then [] else ' ' :: joinSpace (blockAttrParts b)
  ('<' :: typeOf b) ++ attrsStr ++ ('>' :: serializeInlineContent b.content)
    ++ ('<' :: '/' :: typeOf b) ++ ['>']

/-- Model of `Array.prototype.join` with a newline separator. -/
def joinNL : List (List Char) → List Char
  | [] => []
  | [s] => s
  | s :: rest => s ++ '\n' :: joinNL rest

/-- Embedding of `serializeDocToXML` from prosemirror-editor.ts. -/
def serializeDocToXML (doc : List Block) : List Char :=
  ('<' :: pageTag ++ ['>']) ++ '\n' :: joinNL (doc.map serializeBlock)
    ++ '\n' :: ('<' :: '/' :: pageTag) ++ ['>']

/-- Spec-side: the DOM tree of one serialized text run. -/
def runTree (r : InlineRun) : XNode :=
  (marksList r.marks).foldl (fun acc tg => XNode.elem tg [] [acc])
    (XNode.text r.text)

/-- Spec-side: the attribute pairs contributed by one optional block
attribute (emitted only when non-null and nonempty, mirroring the source's
truthiness test). -/
def optSeg (o : Option (List Char)) (nm : List Char) :
    List (List Char × List Char) :=
  match o with
  | some t => if t = [] then [] else [(nm, t)]
  | none => []

/-- Spec-side: the attribute pairs contributed by the merge-next flag. -/
def mergeSeg (b : Block) : List (List Char × List Char) :=
  if b.merge_next then [(mergeNextAttr, trueStr)] else []

/-- Spec-side: the attribute list of a serialized block, with raw
(unescaped) values. -/
def blockAttrsList (b : Block) : List (List Char × List Char) :=
  optSeg b.text textAttr ++ (optSeg b.n nAttr ++ (optSeg b.mark markAttr
    ++ (optSeg b.lang langAttr ++ mergeSeg b)))

/-- Spec-side: the DOM element of a serialized block. -/
def blockElem (b : Block) : XNode :=
  XNode.elem (typeOf b) (blockAttrsList b) (b.content.map runTree)

/-- Spec-side: the child nodes of the serialized page for a nonempty
document: a newline text node before each block and after the last. -/
def pageChildrenAux : List Block → List XNode
  | [] => [XNode.text ['\n']]
  | b :: bs => XNode.text ['\n'] :: blockElem b :: pageChildrenAux bs

/-- Spec-side: the DOM tree of a serialized nonempty document. -/
def pageTree (d : List Block) : XNode :=
  XNode.elem pageTag [] (pageChildrenAux d)

/-- Adjacent runs carry different mark sets (ProseMirror normal form). -/
def adjacentDistinct : List InlineRun → Bool
  | [] => true
  | [_] => true
  | r1 :: r2 :: rest => decide (r1.marks ≠ r2.marks) && adjacentDistinct (r2 :: rest)

/-- A block of the custom schema in ProseMirror normal form, restricted as
the amended claims C1 and C2 require: a nonempty lowercase XML-name type,
attributes absent or nonempty, and nonempty text runs with distinct adjacent
mark sets. -/
def validBlock (b : Block) : Bool :=
  decide (b.type ≠ []) && b.type.all isNameChar && decide (lowerStr b.type = b.type)
    && decide (b.text ≠ some []) && decide (b.n ≠ some [])
    && decide (b.mark ≠ some []) && decide (b.lang ≠ some [])
    && b.content.all (fun r => decide (r.text ≠ []))
    && adjacentDistinct b.content

/-- A document of the custom schema in normal form: a nonempty sequence of
valid blocks. -/
def validDoc (d : List Block) : Bool :=
  decide (d ≠ []) && d.all validBlock

/-- Does the parse produce a page root with no child elements?  Used to
state claim C7 without comparing DOM trees. -/
def isPageNoChildElems : Option XNode → Bool
  | some (XNode.elem tag _ children) =>
    decide (lowerStr tag = pageTag) && (elemChildren children).isEmpty
  | _ => false

/-- Does the parse produce a root element named page? -/
def pageRootCheck : Option XNode → Bool
  | some (XNode.elem tag _ _) => decide (lowerStr tag = pageTag)
  | _ => false

/-- Spec-side: the serialized attribute list as a flat character string,
one leading space per attribute. -/
def printAttrs (attrs : List (List Char × List Char)) : List Char :=
  (attrs.map (fun p => ' ' :: p.1 ++ ('=' :: quotChar :: escapeXML p.2) ++ [quotChar])).flatten

/-- Spec-side: the token list produced by lexing a serialized text run with
the given mark tags (innermost first, as in `serializeRun`). -/
def wrappedToks (tags : List (List Char)) (txt : List Char) : List XMLToken :=
  tags.foldl
    (fun acc tg => XMLToken.tagOpen tg [] :: acc ++ [XMLToken.tagClose tg])
    [XMLToken.text txt]

/-- Spec-side: the token list of a block's serialized inline content. -/
def inlineToks (content : List InlineRun) : List XMLToken :=
  (content.map (fun r => wrappedToks (marksList r.marks) r.text)).flatten

/-- Spec-side: the token list of a serialized block. -/
def blockToks (b : Block) : List XMLToken :=
  XMLToken.tagOpen (typeOf b) (blockAttrsList b)
    :: inlineToks b.content ++ [XMLToken.tagClose (typeOf b)]

/-- Spec-side: the token list of a serialized nonempty document. -/
def pageToks (d : List Block) : List XMLToken :=
  XMLToken.tagOpen pageTag []
    :: (d.map (fun b => XMLToken.text ['\n'] :: blockToks b)).flatten
    ++ [XMLToken.text ['\n'], XMLToken.tagClose pageTag]

/-- A token list that, replayed by the DOM builder from any state with an
open element, appends exactly `node` to that element's children. -/
def AppendsNode (toks : List XMLToken) (node : XNode) : Prop :=
  ∀ (fr : XFrame) (stack : List XFrame) (roots : List XNode),
    List.foldl domStep (some ⟨fr :: stack, roots⟩) toks
      = some ⟨⟨fr.tag, fr.attrs, fr.children ++ [node]⟩ :: stack, roots⟩

/-- A token list that appends exactly `nodes`, in order, to the innermost
open element. -/
def AppendsNodes (toks : List XMLToken) (nodes : List XNode) : Prop :=
  ∀ (fr : XFrame) (stack : List XFrame) (roots : List XNode),
    List.foldl domStep (some ⟨fr :: stack, roots⟩) toks
      = some ⟨⟨fr.tag, fr.attrs, fr.children ++ nodes⟩ :: stack, roots⟩

end Ambuda

namespace Ambuda

theorem replaceChar_append (c : Char) (r : List Char) (a b : List Char) :
    replaceChar c r (a ++ b) = replaceChar c r a ++ replaceChar c r b := by
  induction a with
  | nil => rfl
  | cons d ds ih => simp [replaceChar, ih]

theorem escapeXML_append (a b : List Char) :
    escapeXML (a ++ b) = escapeXML a ++ escapeXML b := by
  simp [escapeXML, replaceChar_append]

theorem escapeXML_nil : escapeXML [] = [] := rfl

theorem escapeXML_singleton (c : Char) : escapeXML [c] = escChar c := by
  by_cases h1 : c = '&'
  · subst h1; decide
  by_cases h2 : c = '<'
  · subst h2; decide
  by_cases h3 : c = '>'
  · subst h3; decide
  by_cases h4 : c = quotChar
  · subst h4; decide
  by_cases h5 : c = aposChar
  · subst h5; decide
  simp [escapeXML, escChar, replaceChar, h1, h2, h3, h4, h5]

theorem escapeXML_eq_flatMap (s : List Char) :
    escapeXML s = s.flatMap escChar := by
  induction s with
  | nil => rfl
  | cons c cs ih =>
    have : (c :: cs) = [c] ++ cs := rfl
    rw [this, escapeXML_append, escapeXML_singleton]
    simp [ih]

theorem entStep_escChar (c : Char) (out t : List Char) :
    List.foldl entStep (out, none) (escChar c ++ t)
      = List.foldl entStep (out ++ [c], none) t := by
  by_cases h1 : c = '&'
  · subst h1; simp [escChar, ampEntity, entStep, entName]
  by_cases h2 : c = '<'
  · subst h2; simp [escChar, ltEntity, entStep, entName]
  by_cases h3 : c = '>'
  · subst h3; simp [escChar, gtEntity, entStep, entName, ltEntity, ampEntity]
  by_cases h4 : c = quotChar
  · subst h4
    simp [escChar, quotEntity, entStep, entName, quotChar, ampEntity, ltEntity, gtEntity]
  by_cases h5 : c = aposChar
  · subst h5
    simp [escChar, aposEntity, entStep, entName, aposChar, quotChar, ampEntity,
      ltEntity, gtEntity, quotEntity]
  · simp [escChar, h1, h2, h3, h4, h5, entStep]

theorem foldl_entStep_escapeXML (s : List Char) :
    ∀ out : List Char,
      List.foldl entStep (out, none) (escapeXML s) = (out ++ s, none) := by
  induction s with
  | nil => intro out; simp [escapeXML_nil]
  | cons c cs ih =>
    intro out
    have h : (c :: cs) = [c] ++ cs := rfl
    rw [h, escapeXML_append, escapeXML_singleton,
      entStep_escChar c out (escapeXML cs), ih (out ++ [c])]
    simp

theorem decode_escapeXML (s : List Char) :
    decodeXMLEntities (escapeXML s) = s := by
  unfold decodeXMLEntities
  rw [foldl_entStep_escapeXML s []]
  simp

theorem escapeXML_injective : Function.Injective escapeXML := by
  intro s t h
  rw [← decode_escapeXML s, ← decode_escapeXML t, h]

theorem escChar_not_special (c : Char) (d : Char) (hd : d ∈ escChar c) :
    isXMLSpecial d = false := by
  by_cases h1 : c = '&'
  · subst h1; revert d; decide
  by_cases h2 : c = '<'
  · subst h2; revert d; decide
  by_cases h3 : c = '>'
  · subst h3; revert d; decide
  by_cases h4 : c = quotChar
  · subst h4; revert d; decide
  by_cases h5 : c = aposChar
  · subst h5; revert d; decide
  · simp only [escChar, h1, h2, h3, h4, h5, if_false, List.mem_singleton] at hd
    subst hd
    simp [isXMLSpecial, h2, h3, h4, h5]

theorem escapeXML_no_special (s : List Char) (d : Char) (hd : d ∈ escapeXML s) :
    isXMLSpecial d = false := by
  rw [escapeXML_eq_flatMap] at hd
  obtain ⟨c, _, hmem⟩ := List.mem_flatMap.mp hd
  exact escChar_not_special c d hmem

end Ambuda

namespace Ambuda

theorem lev_nil_left (ys : List Char) : lev [] ys = ys.length := by
  simp [lev]

theorem lev_nil_right (xs : List Char) : lev xs [] = xs.length := by
  cases xs <;> simp [lev]

theorem lev_cons_cons (x y : Char) (xs ys : List Char) :
    lev (x :: xs) (y :: ys) =
      if x = y then lev xs ys
      else 1 + min (lev xs ys) (min (lev (x :: xs) ys) (lev xs (y :: ys))) := by
  rw [lev]

theorem lev_bounds :
    ∀ (N : Nat) (xs ys : List Char), xs.length + ys.length ≤ N →
      (∀ a, lev (a :: xs) ys ≤ lev xs ys + 1) ∧
      (∀ b, lev xs (b :: ys) ≤ lev xs ys + 1) ∧
      (∀ y, lev xs ys ≤ lev xs (y :: ys) + 1) ∧
      (∀ x, lev xs ys ≤ lev (x :: xs) ys + 1) := by
  intro N
  induction N with
  | zero =>
    intro xs ys h
    have hx : xs = [] := by cases xs <;> simp_all
    have hy : ys = [] := by cases ys <;> simp_all
    subst hx; subst hy
    refine ⟨fun a => ?_, fun b => ?_, fun y => ?_, fun x => ?_⟩ <;>
      simp [lev_nil_left, lev_nil_right]
  | succ N ih =>
    intro xs ys h
    refine ⟨fun a => ?_, fun b => ?_, fun y => ?_, fun x => ?_⟩
    · cases ys with
      | nil => simp [lev_nil_right]
      | cons y ys =>
        have ih2 := ih xs ys (by simp at h ⊢; omega)
        by_cases hay : a = y
        · subst hay
          rw [lev_cons_cons a a xs ys, if_pos rfl]
          exact ih2.2.2.1 a
        · rw [lev_cons_cons a y xs ys, if_neg hay]
          omega
    · cases xs with
      | nil => simp [lev_nil_left]
      | cons x xs =>
        have ih2 := ih xs ys (by simp at h ⊢; omega)
        by_cases hxb : x = b
        · subst hxb
          rw [lev_cons_cons x x xs ys, if_pos rfl]
          exact ih2.2.2.2 x
        · rw [lev_cons_cons x b xs ys, if_neg hxb]
          omega
    · cases xs with
      | nil => simp [lev_nil_left]; omega
      | cons x xs =>
        have ih2 := ih xs ys (by simp at h ⊢; omega)
        by_cases hxy : x = y
        · subst hxy
          rw [lev_cons_cons x x xs ys, if_pos rfl]
          exact ih2.1 x
        · rw [lev_cons_cons x y xs ys, if_neg hxy]
          have h1 := ih2.1 x
          have h2 := ih2.2.2.1 y
          omega
    · cases ys with
      | nil => simp [lev_nil_right]; omega
      | cons y ys =>
        have ih2 := ih xs ys (by simp at h ⊢; omega)
        by_cases hxy : x = y
        · subst hxy
          rw [lev_cons_cons x x xs ys, if_pos rfl]
          exact ih2.2.1 x
        · rw [lev_cons_cons x y xs ys, if_neg hxy]
          have h1 := ih2.2.1 y
          have h2 := ih2.2.2.2 x
          omega

end Ambuda

namespace Ambuda

theorem edits_all_ins : ∀ ys : List Char, Edits [] ys ys.length
  | [] => Edits.nil
  | y :: ys => Edits.ins y (edits_all_ins ys)

theorem edits_all_del : ∀ xs : List Char, Edits xs [] xs.length
  | [] => Edits.nil
  | x :: xs => Edits.del x (edits_all_del xs)

theorem edits_exists : ∀ xs ys : List Char, Edits xs ys (lev xs ys)
  | [], ys => by rw [lev_nil_left]; exact edits_all_ins ys
  | x :: xs, [] => by rw [lev_nil_right]; exact edits_all_del (x :: xs)
  | x :: xs, y :: ys => by
    rw [lev_cons_cons]
    by_cases hxy : x = y
    · subst hxy
      rw [if_pos rfl]
      exact Edits.keep x (edits_exists xs ys)
    · rw [if_neg hxy]
      have hA := edits_exists xs ys
      have hB := edits_exists (x :: xs) ys
      have hC := edits_exists xs (y :: ys)
      rcases min_cases (lev xs ys) (min (lev (x :: xs) ys) (lev xs (y :: ys))) with
        ⟨h1, _⟩ | ⟨h1, _⟩
      · rw [h1, Nat.add_comm]
        exact Edits.subst x y hA
      · rcases min_cases (lev (x :: xs) ys) (lev xs (y :: ys)) with ⟨h2, _⟩ | ⟨h2, _⟩
        · rw [h1, h2, Nat.add_comm]
          exact Edits.ins y hB
        · rw [h1, h2, Nat.add_comm]
          exact Edits.del x hC
  termination_by xs ys => xs.length + ys.length
  decreasing_by all_goals (simp; try omega)

theorem edits_ge {xs ys : List Char} {n : Nat} (h : Edits xs ys n) :
    lev xs ys ≤ n := by
  induction h with
  | nil => simp [lev_nil_left]
  | keep c _ ih =>
    rw [lev_cons_cons, if_pos rfl]
    exact ih
  | subst a b _ ih =>
    rw [lev_cons_cons]
    by_cases hab : a = b
    · rw [if_pos hab]; omega
    · rw [if_neg hab]; omega
  | @del a xs ys _ _ ih =>
    cases ys with
    | nil =>
      rw [lev_nil_right] at ih ⊢
      simp; omega
    | cons y ys =>
      by_cases hay : a = y
      · subst hay
        rw [lev_cons_cons a a xs ys, if_pos rfl]
        have := (lev_bounds (xs.length + ys.length) xs ys le_rfl).2.2.1 a
        omega
      · rw [lev_cons_cons a y xs ys, if_neg hay]
        omega
  | @ins b xs ys _ _ ih =>
    cases xs with
    | nil =>
      rw [lev_nil_left] at ih ⊢
      simp; omega
    | cons x xs =>
      by_cases hxb : x = b
      · subst hxb
        rw [lev_cons_cons x x xs ys, if_pos rfl]
        have := (lev_bounds (xs.length + ys.length) xs ys le_rfl).2.2.2 x
        omega
      · rw [lev_cons_cons x b xs ys, if_neg hxb]
        omega

end Ambuda

namespace Ambuda

theorem edits_append {xs ys xs2 ys2 : List Char} {n m : Nat}
    (h : Edits xs ys n) (h2 : Edits xs2 ys2 m) :
    Edits (xs ++ xs2) (ys ++ ys2) (n + m) := by
  induction h with
  | nil => simpa using h2
  | keep c _ ih => exact Edits.keep c ih
  | subst a b _ ih =>
    have := Edits.subst a b ih
    simpa [Nat.succ_add] using this
  | del a _ ih =>
    have := Edits.del a ih
    simpa [Nat.succ_add] using this
  | ins b _ ih =>
    have := Edits.ins b ih
    simpa [Nat.succ_add] using this

theorem edits_reverse {xs ys : List Char} {n : Nat} (h : Edits xs ys n) :
    Edits xs.reverse ys.reverse n := by
  induction h with
  | nil => exact Edits.nil
  | keep c _ ih =>
    have := edits_append ih (Edits.keep c Edits.nil)
    simpa using this
  | subst a b _ ih =>
    have := edits_append ih (Edits.subst a b Edits.nil)
    simpa using this
  | del a _ ih =>
    have := edits_append ih (Edits.del a Edits.nil)
    simpa using this
  | ins b _ ih =>
    have := edits_append ih (Edits.ins b Edits.nil)
    simpa using this

theorem lev_reverse (xs ys : List Char) :
    lev xs.reverse ys.reverse = lev xs ys := by
  apply Nat.le_antisymm
  · exact edits_ge (edits_reverse (edits_exists xs ys))
  · have h := edits_ge (edits_reverse (edits_exists xs.reverse ys.reverse))
    simpa using h

theorem lev_snoc (a b : Char) (u v : List Char) :
    lev (u ++ [a]) (v ++ [b]) =
      if a = b then lev u v
      else 1 + min (lev u v) (min (lev (u ++ [a]) v) (lev u (v ++ [b]))) := by
  have h1 : lev (u ++ [a]) (v ++ [b]) = lev (a :: u.reverse) (b :: v.reverse) := by
    rw [← lev_reverse (u ++ [a]) (v ++ [b])]
    simp
  have e1 : lev u.reverse v.reverse = lev u v := by
    rw [← lev_reverse u v]
  have e2 : lev (a :: u.reverse) v.reverse = lev (u ++ [a]) v := by
    rw [← lev_reverse (u ++ [a]) v]
    simp
  have e3 : lev u.reverse (b :: v.reverse) = lev u (v ++ [b]) := by
    rw [← lev_reverse u (v ++ [b])]
    simp
  rw [h1, lev_cons_cons, e1, e2, e3]

end Ambuda

namespace Ambuda

theorem levRowFor_head_expose (u w : List Char) (ys : List Char) :
    levRowFor u w ys = lev u w :: (levRowFor u w ys).tail := by
  cases ys <;> simp [levRowFor]

theorem levRowFor_tail (u w : List Char) (y : Char) (ys : List Char) :
    (levRowFor u w (y :: ys)).tail = levRowFor u (w ++ [y]) ys := by
  simp [levRowFor]

theorem levRowStep_spec (c1 : Char) (u : List Char) :
    ∀ (ys w : List Char),
      levRowStep c1 ys (levRowFor u w ys) (lev (u ++ [c1]) w)
        = (levRowFor (u ++ [c1]) w ys).tail
  | [], w => by simp [levRowFor, levRowStep]
  | y :: ys, w => by
    rw [show levRowFor u w (y :: ys) = lev u w :: levRowFor u (w ++ [y]) ys from rfl]
    rw [levRowFor_head_expose u (w ++ [y]) ys]
    rw [levRowStep]
    have hcur :
        (if c1 = y then lev u w
          else min (lev u (w ++ [y]) + 1)
            (min (lev (u ++ [c1]) w + 1) (lev u w + 1)))
        = lev (u ++ [c1]) (w ++ [y]) := by
      rw [lev_snoc]
      split
      · rfl
      · omega
    rw [hcur, ← levRowFor_head_expose u (w ++ [y]) ys]
    rw [levRowStep_spec c1 u ys (w ++ [y])]
    rw [levRowFor_tail (u ++ [c1]) w y ys]
    exact (levRowFor_head_expose (u ++ [c1]) (w ++ [y]) ys).symm

theorem levRows_spec (s2 : List Char) :
    ∀ (cs u : List Char),
      levRows s2 cs u.length (levRowFor u [] s2) = levRowFor (u ++ cs) [] s2
  | [], u => by simp [levRows]
  | c :: cs, u => by
    rw [levRows]
    have hleft : u.length + 1 = lev (u ++ [c]) [] := by
      simp [lev_nil_right]
    have hrow :
        (u.length + 1) :: levRowStep c s2 (levRowFor u [] s2) (u.length + 1)
          = levRowFor (u ++ [c]) [] s2 := by
      rw [hleft, levRowStep_spec c u s2 []]
      exact (levRowFor_head_expose (u ++ [c]) [] s2).symm
    rw [hrow]
    have hlen : u.length + 1 = (u ++ [c]).length := by simp
    rw [hlen, levRows_spec s2 cs (u ++ [c])]
    simp

theorem levRowFor_nil_left :
    ∀ (ys w : List Char), levRowFor [] w ys = (List.range (ys.length + 1)).map (· + w.length)
  | [], w => by simp [levRowFor, lev_nil_left, List.range_succ]
  | y :: ys, w => by
    have hexp : ∀ (n w2 : Nat),
        List.map (· + w2) (List.range (n + 1))
          = w2 :: List.map (· + (w2 + 1)) (List.range n) := by
      intro n w2
      rw [List.range_succ_eq_map, List.map_cons, List.map_map]
      refine List.cons_eq_cons.mpr ⟨by omega, ?_⟩
      apply List.map_congr_left
      intro m _
      simp [Function.comp_apply]
      omega
    show lev [] w :: levRowFor [] (w ++ [y]) ys = _
    rw [levRowFor_nil_left ys (w ++ [y]), lev_nil_left, List.length_cons,
      hexp (ys.length + 1) w.length]
    congr 2
    simp

theorem levRowFor_getLastD (u : List Char) :
    ∀ (ys w : List Char) (d : Nat), (levRowFor u w ys).getLastD d = lev u (w ++ ys)
  | [], w, d => by simp [levRowFor]
  | y :: ys, w, d => by
    rw [show levRowFor u w (y :: ys) = lev u w :: levRowFor u (w ++ [y]) ys from rfl]
    rw [List.getLastD_cons, levRowFor_getLastD u ys (w ++ [y]) (lev u w)]
    simp

theorem levenshteinDistance_eq_lev (s1 s2 : List Char) :
    levenshteinDistance s1 s2 = lev s1 s2 := by
  unfold levenshteinDistance
  have h0 : List.range (s2.length + 1) = levRowFor [] [] s2 := by
    rw [levRowFor_nil_left s2 []]
    simp
  rw [h0]
  have h1 := levRows_spec s2 s1 []
  simp only [List.length_nil, List.nil_append] at h1
  rw [h1, levRowFor_getLastD s1 s2 [] 0]
  simp

end Ambuda

namespace Ambuda

theorem lev_self : ∀ xs : List Char, lev xs xs = 0
  | [] => by simp [lev_nil_left]
  | x :: xs => by rw [lev_cons_cons, if_pos rfl]; exact lev_self xs

theorem lev_le_max : ∀ xs ys : List Char, lev xs ys ≤ max xs.length ys.length
  | [], ys => by simp [lev_nil_left]
  | x :: xs, [] => by simp [lev_nil_right]
  | x :: xs, y :: ys => by
    rw [lev_cons_cons]
    have h := lev_le_max xs ys
    by_cases hxy : x = y
    · rw [if_pos hxy]
      simp only [List.length_cons]
      omega
    · rw [if_neg hxy]
      simp only [List.length_cons]
      omega
  termination_by xs ys => xs.length + ys.length
  decreasing_by all_goals (simp; try omega)

theorem lev_eq_zero : ∀ xs ys : List Char, lev xs ys = 0 → xs = ys
  | [], ys => by simp [lev_nil_left]
  | x :: xs, [] => by simp [lev_nil_right]
  | x :: xs, y :: ys => by
    rw [lev_cons_cons]
    by_cases hxy : x = y
    · rw [if_pos hxy]
      intro h
      rw [hxy, lev_eq_zero xs ys h]
    · rw [if_neg hxy]
      omega
  termination_by xs ys => xs.length + ys.length
  decreasing_by all_goals (simp; try omega)

/-- C5: levenshteinDistance computes the minimum number of single-character
insertions, deletions, and substitutions transforming the first string into
the second (least element of the Edits cost set), and similarityRatio equals
1 minus that distance over the longer length, lies in the interval 0 to 1,
and equals 1 exactly when the two strings are equal. -/
theorem levenshtein_similarity_spec (a b : List Char) :
    IsLeast {n : ℕ | Edits a b n} (levenshteinDistance a b) ∧
    similarityRatio a b
      = 1 - (levenshteinDistance a b : ℚ) / ((max a.length b.length : ℕ) : ℚ) ∧
    0 ≤ similarityRatio a b ∧ similarityRatio a b ≤ 1 ∧
    (similarityRatio a b = 1 ↔ a = b) := by
  have hdl : levenshteinDistance a b = lev a b := levenshteinDistance_eq_lev a b
  have hleast : IsLeast {n : ℕ | Edits a b n} (levenshteinDistance a b) := by
    constructor
    · rw [Set.mem_setOf_eq, hdl]
      exact edits_exists a b
    · intro n hn
      rw [hdl]
      exact edits_ge hn
  have hle : lev a b ≤ max a.length b.length := lev_le_max a b
  by_cases hab : a = b
  · subst hab
    have hz : levenshteinDistance a a = 0 := by rw [hdl, lev_self]
    have hr : similarityRatio a a = 1 := by simp [similarityRatio]
    refine ⟨hleast, ?_, by rw [hr]; norm_num, by rw [hr], by simp [hr]⟩
    rw [hr, hz]
    simp
  · have hne : lev a b ≠ 0 := fun h => hab (lev_eq_zero a b h)
    have hmaxpos : 0 < max a.length b.length := by
      rcases Nat.eq_zero_or_pos (max a.length b.length) with h | h
      · exfalso
        apply hne
        omega
      · exact h
    have hmQ : (0 : ℚ) < ((max a.length b.length : ℕ) : ℚ) := by
      exact_mod_cast hmaxpos
    have hform : similarityRatio a b
        = 1 - (levenshteinDistance a b : ℚ) / ((max a.length b.length : ℕ) : ℚ) := by
      by_cases hempty : a = [] ∨ b = []
      · have hr0 : similarityRatio a b = 0 := by
          simp [similarityRatio, hab, hempty]
        rw [hr0, hdl]
        rcases hempty with h | h
        · subst h
          rw [lev_nil_left]
          have hbne : b.length ≠ 0 := by
            intro h0
            exact hab (by simp [List.length_eq_zero] at h0; simp [h0])
          rw [show max ([] : List Char).length b.length = b.length by simp]
          field_simp
        · subst h
          rw [lev_nil_right]
          have hane : a.length ≠ 0 := by
            intro h0
            exact hab (by simp [List.length_eq_zero] at h0; simp [h0])
          rw [show max a.length ([] : List Char).length = a.length by simp]
          field_simp
      · simp [similarityRatio, hab, hempty]
    have hdist01 : 0 ≤ (levenshteinDistance a b : ℚ) / ((max a.length b.length : ℕ) : ℚ)
        ∧ (levenshteinDistance a b : ℚ) / ((max a.length b.length : ℕ) : ℚ) ≤ 1 := by
      constructor
      · positivity
      · rw [div_le_one hmQ]
        exact_mod_cast hdl ▸ hle
    refine ⟨hleast, hform, ?_, ?_, ?_⟩
    · rw [hform]; linarith [hdist01.2]
    · rw [hform]; linarith [hdist01.1]
    · constructor
      · intro h1
        exfalso
        rw [hform] at h1
        have hdz : (levenshteinDistance a b : ℚ) / ((max a.length b.length : ℕ) : ℚ) = 0 := by
          linarith
        rw [div_eq_zero_iff] at hdz
        rcases hdz with h | h
        · have : levenshteinDistance a b = 0 := by exact_mod_cast h
          exact hne (hdl ▸ this)
        · linarith
      · intro h
        exact absurd h hab

/-- Witness for C5: the lower-bound half applied to a concrete edit script
(one deletion transforming ab into b), plus a concrete distance value. -/
theorem levenshtein_similarity_spec_witness :
    levenshteinDistance ['a', 'b'] ['b'] ≤ 1 ∧
    levenshteinDistance ['a', 'b'] ['b'] = 1 :=
  ⟨(levenshtein_similarity_spec ['a', 'b'] ['b']).1.2
      (Edits.del 'a' (Edits.keep 'b' Edits.nil)),
   by decide⟩

/-- C10: escapeXML leaves none of the characters lt, gt, quot, apos anywhere
in its output (so in particular only inside emitted entities), decoding the
five XML entities in its output returns the input, and it is injective. -/
theorem escapeXML_roundtrip_injective (s : List Char) :
    (∀ d ∈ escapeXML s, ¬ (d = '<' ∨ d = '>' ∨ d = quotChar ∨ d = aposChar)) ∧
    decodeXMLEntities (escapeXML s) = s ∧
    (∀ t : List Char, escapeXML s = escapeXML t → s = t) := by
  refine ⟨?_, decode_escapeXML s, ?_⟩
  · intro d hd hcon
    have h := escapeXML_no_special s d hd
    rcases hcon with h1 | h1 | h1 | h1 <;> simp [isXMLSpecial, h1] at h
  · intro t h
    exact escapeXML_injective h

/-- Witness for C10 at concrete inputs: the ampersand of an emitted entity
is none of the four quoted characters, and injectivity applied at a
concrete pair. -/
theorem escapeXML_roundtrip_injective_witness :
    ¬ ('&' = '<' ∨ '&' = '>' ∨ '&' = quotChar ∨ '&' = aposChar) ∧
    decodeXMLEntities (escapeXML ['<', 'a']) = ['<', 'a'] :=
  ⟨(escapeXML_roundtrip_injective ['<']).1 '&' (by decide),
   (escapeXML_roundtrip_injective ['<', 'a']).2.1⟩

end Ambuda

namespace Ambuda

theorem groupLoop_flatten :
    ∀ (l : List BBox) (curY : Int) (cur : List BBox),
      (groupLoop curY cur l).flatten = cur ++ l
  | [], curY, cur => by simp [groupLoop]
  | b :: bs, curY, cur => by
    rw [groupLoop]
    split
    · rw [groupLoop_flatten bs curY (cur ++ [b])]
      simp
    · rw [List.flatten_cons, groupLoop_flatten bs b.y1 [b]]
      simp

theorem groupLoop_lines_sound :
    ∀ (l : List BBox) (curY : Int) (cur : List BBox),
      (∃ b0 bs0, cur = b0 :: bs0 ∧ b0.y1 = curY) →
      (∀ x ∈ cur, (x.y1 - curY).natAbs < 10) →
      ∀ g ∈ groupLoop curY cur l,
        ∃ b0 bs0, g = b0 :: bs0 ∧ ∀ x ∈ g, (x.y1 - b0.y1).natAbs < 10
  | [], curY, cur => by
    intro hhead hmem g hg
    simp [groupLoop] at hg
    subst hg
    obtain ⟨b0, bs0, hcur, hy⟩ := hhead
    exact ⟨b0, bs0, hcur, fun x hx => by rw [hy]; exact hmem x hx⟩
  | b :: bs, curY, cur => by
    intro hhead hmem g hg
    rw [groupLoop] at hg
    split at hg
    · refine groupLoop_lines_sound bs curY (cur ++ [b]) ?_ ?_ g hg
      · obtain ⟨b0, bs0, hcur, hy⟩ := hhead
        exact ⟨b0, bs0 ++ [b], by rw [hcur]; simp, hy⟩
      · intro x hx
        rcases List.mem_append.mp hx with h | h
        · exact hmem x h
        · simp at h
          subst h
          assumption
    · rcases List.mem_cons.mp hg with h | h
      · subst h
        obtain ⟨b0, bs0, hcur, hy⟩ := hhead
        exact ⟨b0, bs0, hcur, fun x hx => by rw [hy]; exact hmem x hx⟩
      · refine groupLoop_lines_sound bs b.y1 [b] ⟨b, [], rfl, rfl⟩ ?_ g h
        intro x hx
        simp at hx
        subst hx
        simp

theorem insertSorted_perm (le : BBox → BBox → Bool) (b : BBox) :
    ∀ l : List BBox, (insertSorted le b l).Perm (b :: l)
  | [] => List.Perm.refl _
  | c :: cs => by
    rw [insertSorted]
    split
    · exact List.Perm.refl _
    · exact ((insertSorted_perm le b cs).cons c).trans (List.Perm.swap b c cs)

theorem sortBoxes_perm (boxes : List BBox) : (sortBoxes boxes).Perm boxes := by
  induction boxes with
  | nil => exact List.Perm.refl _
  | cons b bs ih =>
    unfold sortBoxes at ih ⊢
    rw [List.foldr_cons]
    exact (insertSorted_perm _ b _).trans (ih.cons b)

/-- C6: groupBoundingBoxesByLine partitions its input: the returned lines
together contain every input box exactly once (a permutation of the input);
within each line every box's y1 is within the sensitivity 10 of the line's
first box; and each line's text is the space-joined concatenation of its
boxes' texts in order. -/
theorem groupBoundingBoxesByLine_partition (boxes : List BBox) :
    ((groupBoundingBoxesByLine boxes).flatMap (fun l => l.boxes)).Perm boxes ∧
    ∀ l ∈ groupBoundingBoxesByLine boxes,
      ∃ b0 bs0, l.boxes = b0 :: bs0 ∧
        (∀ b ∈ l.boxes, (b.y1 - b0.y1).natAbs < 10) ∧
        l.text = joinSpace (l.boxes.map (fun bx => bx.text)) := by
  have hperm := sortBoxes_perm boxes
  unfold groupBoundingBoxesByLine
  cases hs : sortBoxes boxes with
  | nil =>
    rw [hs] at hperm
    constructor
    · simpa using hperm
    · intro l hl
      simp at hl
  | cons b bs =>
    rw [hs] at hperm
    constructor
    · have hflat : ((groupLoop b.y1 [b] bs).map (fun lineBoxes =>
          ({ text := joinSpace (lineBoxes.map (fun bx => bx.text)),
             boxes := lineBoxes } : OCRLine))).flatMap (fun l => l.boxes)
          = (groupLoop b.y1 [b] bs).flatten := by
        rw [List.flatMap_map]
        simp [List.flatMap_def]
      rw [hflat, groupLoop_flatten bs b.y1 [b]]
      simpa using hperm
    · intro l hl
      obtain ⟨lb, hlb, hleq⟩ := List.mem_map.mp hl
      have hsound := groupLoop_lines_sound bs b.y1 [b] ⟨b, [], rfl, rfl⟩
        (by intro x hx; simp at hx; subst hx; simp) lb hlb
      obtain ⟨b0, bs0, hlbeq, hy⟩ := hsound
      refine ⟨b0, bs0, ?_, ?_, ?_⟩
      · rw [← hleq]; exact hlbeq
      · intro x hx
        apply hy
        rw [← hleq] at hx
        exact hx
      · rw [← hleq]

/-- Witness for C6 at two concrete boxes on the same visual line. -/
theorem groupBoundingBoxesByLine_partition_witness :
    ∃ b0 bs0,
      (⟨['a', ' ', 'b'], [⟨0, 0, 5, 5, ['a']⟩, ⟨10, 0, 15, 5, ['b']⟩]⟩ : OCRLine).boxes
          = b0 :: bs0 ∧
      (∀ b ∈ (⟨['a', ' ', 'b'],
          [⟨0, 0, 5, 5, ['a']⟩, ⟨10, 0, 15, 5, ['b']⟩]⟩ : OCRLine).boxes,
        (b.y1 - b0.y1).natAbs < 10) ∧
      (⟨['a', ' ', 'b'], [⟨0, 0, 5, 5, ['a']⟩, ⟨10, 0, 15, 5, ['b']⟩]⟩ : OCRLine).text
        = joinSpace ((⟨['a', ' ', 'b'],
            [⟨0, 0, 5, 5, ['a']⟩, ⟨10, 0, 15, 5, ['b']⟩]⟩ : OCRLine).boxes.map
              (fun bx => bx.text)) :=
  (groupBoundingBoxesByLine_partition
      [⟨0, 0, 5, 5, ['a']⟩, ⟨10, 0, 15, 5, ['b']⟩]).2 _ (by decide)

end Ambuda

namespace Ambuda

theorem bestLineLoop_first_exact (n : List Char) :
    ∀ (pre : List OCRLine) (post : List OCRLine) (L : OCRLine)
      (best : Option OCRLine) (sim : ℚ),
      (∀ l ∈ pre, trimStr (lowerStr l.text) ≠ n) →
      trimStr (lowerStr L.text) = n →
      bestLineLoop n (pre ++ L :: post) best sim = some L
  | [], post, L, best, sim => by
    intro _ hL
    simp [bestLineLoop, hL]
  | p :: pre, post, L, best, sim => by
    intro hpre hL
    rw [List.cons_append]
    simp only [bestLineLoop]
    rw [if_neg (hpre p (List.mem_cons_self p pre))]
    have hrest : ∀ l ∈ pre, trimStr (lowerStr l.text) ≠ n :=
      fun l hl => hpre l (List.mem_cons_of_mem p hl)
    by_cases hlt : sim < similarityRatio n (trimStr (lowerStr p.text))
    · rw [if_pos hlt]
      exact bestLineLoop_first_exact n pre post L _ _ hrest hL
    · rw [if_neg hlt]
      exact bestLineLoop_first_exact n pre post L _ _ hrest hL

theorem bestWordLoop_exact_exists (w : List Char) :
    ∀ (bs : List BBox) (best : Option BBox) (sim : ℚ),
      (∃ b ∈ bs, lowerStr b.text = w) →
      ∃ b, bestWordLoop w bs best sim = some b ∧ b ∈ bs ∧ lowerStr b.text = w
  | [], best, sim => by
    intro h
    simp at h
  | c :: cs, best, sim => by
    intro h
    simp only [bestWordLoop]
    by_cases hc : lowerStr c.text = w
    · rw [if_pos hc]
      exact ⟨c, rfl, List.mem_cons_self c cs, hc⟩
    · rw [if_neg hc]
      have hcs : ∃ b ∈ cs, lowerStr b.text = w := by
        obtain ⟨b, hb, hbw⟩ := h
        rcases List.mem_cons.mp hb with rfl | hmem
        · exact absurd hbw hc
        · exact ⟨b, hmem, hbw⟩
      by_cases hlt : sim < similarityRatio w (lowerStr c.text)
      · rw [if_pos hlt]
        obtain ⟨b, hb, hmem, hbw⟩ := bestWordLoop_exact_exists w cs _ _ hcs
        exact ⟨b, hb, List.mem_cons_of_mem c hmem, hbw⟩
      · rw [if_neg hlt]
        obtain ⟨b, hb, hmem, hbw⟩ := bestWordLoop_exact_exists w cs _ _ hcs
        exact ⟨b, hb, List.mem_cons_of_mem c hmem, hbw⟩

theorem bestWordLoop_sound (w : List Char) :
    ∀ (bs : List BBox) (best : Option BBox) (sim : ℚ),
      (7 / 10 : ℚ) ≤ sim →
      (∀ b0, best = some b0 →
        lowerStr b0.text = w ∨ (7 / 10 : ℚ) < similarityRatio w (lowerStr b0.text)) →
      ∀ b, bestWordLoop w bs best sim = some b →
        lowerStr b.text = w ∨ (7 / 10 : ℚ) < similarityRatio w (lowerStr b.text)
  | [], best, sim => by
    intro _ hbest b hb
    exact hbest b hb
  | c :: cs, best, sim => by
    intro hsim hbest b hb
    simp only [bestWordLoop] at hb
    by_cases hc : lowerStr c.text = w
    · rw [if_pos hc] at hb
      cases hb
      exact Or.inl hc
    · rw [if_neg hc] at hb
      by_cases hlt : sim < similarityRatio w (lowerStr c.text)
      · rw [if_pos hlt] at hb
        refine bestWordLoop_sound w cs _ _ (le_of_lt (lt_of_le_of_lt hsim hlt)) ?_ b hb
        intro b0 hb0
        cases hb0
        exact Or.inr (lt_of_le_of_lt hsim hlt)
      · rw [if_neg hlt] at hb
        exact bestWordLoop_sound w cs _ _ hsim hbest b hb

theorem fallbackFuzzyLoop_sound (w : List Char) :
    ∀ (bs : List BBox) (best : Option BBox) (sim : ℚ),
      (7 / 10 : ℚ) ≤ sim →
      (∀ b0, best = some b0 →
        lowerStr b0.text = w ∨ (7 / 10 : ℚ) < similarityRatio w (lowerStr b0.text)) →
      ∀ b, fallbackFuzzyLoop w bs best sim = some b →
        lowerStr b.text = w ∨ (7 / 10 : ℚ) < similarityRatio w (lowerStr b.text)
  | [], best, sim => by
    intro _ hbest b hb
    exact hbest b hb
  | c :: cs, best, sim => by
    intro hsim hbest b hb
    simp only [fallbackFuzzyLoop] at hb
    by_cases hlt : sim < similarityRatio w (lowerStr c.text)
    · rw [if_pos hlt] at hb
      refine fallbackFuzzyLoop_sound w cs _ _ (le_of_lt (lt_of_le_of_lt hsim hlt)) ?_ b hb
      intro b0 hb0
      cases hb0
      exact Or.inr (lt_of_le_of_lt hsim hlt)
    · rw [if_neg hlt] at hb
      exact fallbackFuzzyLoop_sound w cs _ _ hsim hbest b hb

theorem findBestMatchingBoundingBoxFallback_sound (boxes : List BBox) (w : List Char)
    (b : BBox) (hb : findBestMatchingBoundingBoxFallback boxes w = some b) :
    lowerStr b.text = w ∨ (7 / 10 : ℚ) < similarityRatio w (lowerStr b.text) := by
  unfold findBestMatchingBoundingBoxFallback at hb
  cases hf : boxes.find? (fun bx => lowerStr bx.text = w) with
  | some c =>
    rw [hf] at hb
    cases hb
    have := List.find?_some hf
    exact Or.inl (by simpa using this)
  | none =>
    rw [hf] at hb
    exact fallbackFuzzyLoop_sound w boxes none (7 / 10) le_rfl (by intro b0 h; cases h) b hb

end Ambuda

namespace Ambuda

/-- C4: findBestMatchingBoundingBox returns none whenever the trimmed cursor
word or the trimmed cursor line is empty; and whenever it returns a bounding
box (via the line path or the fallback over all boxes), that box's lowercased
text either equals the trimmed cursor word or has similarityRatio strictly
greater than 0.7 with it. -/
theorem findBestMatchingBoundingBox_threshold (lines : List OCRLine)
    (boxes : List BBox) (word lineText : List Char) :
    ((trimStr word = [] ∨ trimStr lineText = []) →
      findBestMatchingBoundingBox lines boxes word lineText = none) ∧
    (∀ b, findBestMatchingBoundingBox lines boxes word lineText = some b →
      lowerStr b.text = trimStr word ∨
        (7 / 10 : ℚ) < similarityRatio (trimStr word) (lowerStr b.text)) := by
  constructor
  · intro h
    simp only [findBestMatchingBoundingBox]
    rw [if_pos h]
  · intro b hb
    simp only [findBestMatchingBoundingBox] at hb
    by_cases h : trimStr word = [] ∨ trimStr lineText = []
    · rw [if_pos h] at hb
      cases hb
    · rw [if_neg h] at hb
      cases hl : bestLineLoop (trimStr lineText) lines none (7 / 10) with
      | none =>
        rw [hl] at hb
        exact findBestMatchingBoundingBoxFallback_sound boxes (trimStr word) b hb
      | some L =>
        rw [hl] at hb
        exact bestWordLoop_sound (trimStr word) L.boxes none (7 / 10) le_rfl
          (by intro b0 h0; cases h0) b hb

/-- Witness for C4: an empty cursor word yields none. -/
theorem findBestMatchingBoundingBox_threshold_witness :
    findBestMatchingBoundingBox [] [] [] ['a'] = none :=
  (findBestMatchingBoundingBox_threshold [] [] [] ['a']).1 (Or.inl (by decide))

/-- Counterexample to C3 as stated: cursor word and line match an OCR line
and box when both sides are compared ignoring case, yet the function returns
none, because the source lowercases only the OCR text and not the cursor
text.  Here the cursor text is uppercase A while the OCR box text is
lowercase a. -/
theorem findBest_exact_case_counterexample :
    (∃ l ∈ groupBoundingBoxesByLine [⟨0, 0, 5, 5, ['a']⟩],
      lowerStr (trimStr l.text) = lowerStr (trimStr ['A']) ∧
      ∃ b ∈ l.boxes, lowerStr b.text = lowerStr (trimStr ['A'])) ∧
    findBestMatchingBoundingBox (groupBoundingBoxesByLine [⟨0, 0, 5, 5, ['a']⟩])
      [⟨0, 0, 5, 5, ['a']⟩] ['A'] ['A'] = none := by
  have hsim : similarityRatio ['A'] ['a'] = 0 := by
    have hd : levenshteinDistance ['A'] ['a'] = 1 := by decide
    rw [similarityRatio, if_neg (by decide), if_neg (by decide), hd]
    norm_num
  refine ⟨by decide, ?_⟩
  have hL : groupBoundingBoxesByLine [⟨0, 0, 5, 5, ['a']⟩]
      = [⟨['a'], [⟨0, 0, 5, 5, ['a']⟩]⟩] := by decide
  rw [hL]
  simp only [findBestMatchingBoundingBox]
  rw [if_neg (by decide)]
  have hbl : bestLineLoop (trimStr ['A']) [⟨['a'], [⟨0, 0, 5, 5, ['a']⟩]⟩] none (7 / 10)
      = none := by
    simp only [bestLineLoop]
    rw [if_neg (by decide)]
    rw [show similarityRatio (trimStr ['A'])
        (trimStr (lowerStr (⟨['a'], [⟨0, 0, 5, 5, ['a']⟩]⟩ : OCRLine).text))
        = similarityRatio ['A'] ['a'] from rfl, hsim]
    rw [if_neg (by norm_num)]
  rw [hbl]
  simp only [findBestMatchingBoundingBoxFallback]
  rw [show ([⟨0, 0, 5, 5, ['a']⟩] : List BBox).find?
      (fun b => lowerStr b.text = trimStr ['A']) = none from by decide]
  simp only [fallbackFuzzyLoop]
  rw [show similarityRatio (trimStr ['A'])
      (lowerStr (⟨0, 0, 5, 5, ['a']⟩ : BBox).text) = similarityRatio ['A'] ['a'] from rfl,
    hsim]
  rw [if_neg (by norm_num)]

/-- C3 amended: if the trimmed cursor word and line are nonempty, the trimmed
cursor line equals the lowercased trimmed text of some OCR line, and the
first such line contains a box whose lowercased text equals the trimmed
cursor word, then findBestMatchingBoundingBox returns a box from that first
matching line whose lowercased text equals the trimmed cursor word. -/
theorem findBestMatchingBoundingBox_exact_match (lines : List OCRLine)
    (boxes : List BBox) (word lineText : List Char)
    (pre post : List OCRLine) (L : OCRLine)
    (hw : trimStr word ≠ []) (hl : trimStr lineText ≠ [])
    (hsplit : lines = pre ++ L :: post)
    (hpre : ∀ l ∈ pre, trimStr (lowerStr l.text) ≠ trimStr lineText)
    (hex : trimStr (lowerStr L.text) = trimStr lineText)
    (hbox : ∃ b ∈ L.boxes, lowerStr b.text = trimStr word) :
    ∃ b, findBestMatchingBoundingBox lines boxes word lineText = some b ∧
      b ∈ L.boxes ∧ lowerStr b.text = trimStr word := by
  simp only [findBestMatchingBoundingBox]
  rw [if_neg (not_or.mpr ⟨hw, hl⟩)]
  rw [hsplit,
    bestLineLoop_first_exact (trimStr lineText) pre post L none (7 / 10) hpre hex]
  exact bestWordLoop_exact_exists (trimStr word) L.boxes none (7 / 10) hbox

/-- Witness for the amended C3 at a concrete one-box page. -/
theorem findBestMatchingBoundingBox_exact_match_witness :
    ∃ b, findBestMatchingBoundingBox
        (groupBoundingBoxesByLine [⟨0, 0, 5, 5, ['h']⟩])
        [⟨0, 0, 5, 5, ['h']⟩] ['h'] ['h'] = some b ∧
      b ∈ (⟨['h'], [⟨0, 0, 5, 5, ['h']⟩]⟩ : OCRLine).boxes ∧
      lowerStr b.text = trimStr ['h'] :=
  findBestMatchingBoundingBox_exact_match
    (groupBoundingBoxesByLine [⟨0, 0, 5, 5, ['h']⟩])
    [⟨0, 0, 5, 5, ['h']⟩] ['h'] ['h'] [] []
    (⟨['h'], [⟨0, 0, 5, 5, ['h']⟩]⟩ : OCRLine)
    (by decide) (by decide) (by decide)
    (by intro l hl; cases hl) (by decide) (by decide)

end Ambuda

namespace Ambuda

/-- C9: the raw-XML view preserves text exactly: for every string, both the
constructor and setText followed by getText return exactly that string,
including the empty string and strings with newlines or surrounding
whitespace. -/
theorem xmlView_get_set_roundtrip (s : List Char) :
    xmlViewGetText (xmlViewInit s) = s ∧ xmlViewGetText (xmlViewSetText s) = s := by
  by_cases h : s = [] <;>
    simp [xmlViewInit, xmlViewSetText, xmlViewGetText, h]

theorem applyOp_WF {st : EditorSt} (h : st.WF) (op : EditorOp) : (applyOp st op).WF := by
  cases op with
  | insert =>
    simp only [applyOp, insertBlock, EditorSt.WF] at h ⊢
    rw [List.length_insertIdx]
    all_goals omega
  | delete =>
    simp only [applyOp, deleteActiveBlock, EditorSt.WF] at h ⊢
    split
    · exact h
    · rename_i hne
      dsimp only
      rw [List.length_eraseIdx_of_lt h]
      omega

theorem applyOps_WF {st : EditorSt} (h : st.WF) (ops : List EditorOp) :
    (applyOps ops st).WF := by
  induction ops generalizing st with
  | nil => exact h
  | cons op ops ih =>
    simp only [applyOps, List.foldl_cons] at *
    exact ih (applyOp_WF h op)

/-- C8: deleteActiveBlock is a no-op when the document has exactly one
block; with more than one block it removes exactly the block containing the
selection (the list with the selected index removed) and decreases the block
count by one; and after any sequence of insertBlock and deleteActiveBlock
operations from a valid state the document still has at least one block. -/
theorem blockEditor_never_empty (st : EditorSt) (ops : List EditorOp)
    (hsel : st.sel < st.blocks.length) :
    (st.blocks.length = 1 → deleteActiveBlock st = st) ∧
    (1 < st.blocks.length →
      (deleteActiveBlock st).blocks
          = st.blocks.take st.sel ++ st.blocks.drop (st.sel + 1) ∧
      (deleteActiveBlock st).blocks.length = st.blocks.length - 1) ∧
    1 ≤ (applyOps ops st).blocks.length := by
  refine ⟨?_, ?_, ?_⟩
  · intro h1
    simp [deleteActiveBlock, h1]
  · intro hgt
    constructor
    · simp only [deleteActiveBlock]
      rw [if_neg (by omega)]
      exact List.eraseIdx_eq_take_drop_succ st.blocks st.sel
    · simp only [deleteActiveBlock]
      rw [if_neg (by omega)]
      exact List.length_eraseIdx_of_lt hsel
  · have h := applyOps_WF (show st.WF from hsel) ops
    simp only [EditorSt.WF] at h
    omega

/-- Witness for C8: a two-block document with the selection in the first
block; deleting leaves the second block, and the document stays nonempty. -/
theorem blockEditor_never_empty_witness :
    (deleteActiveBlock ⟨[emptyPBlock, emptyPBlock], 0⟩).blocks
        = ([emptyPBlock, emptyPBlock] : List Block).take 0
            ++ ([emptyPBlock, emptyPBlock] : List Block).drop 1 ∧
    1 ≤ (applyOps [EditorOp.delete, EditorOp.delete]
        ⟨[emptyPBlock, emptyPBlock], 0⟩).blocks.length :=
  ⟨((blockEditor_never_empty ⟨[emptyPBlock, emptyPBlock], 0⟩ [] (by decide)).2.1
      (by decide)).1,
   (blockEditor_never_empty ⟨[emptyPBlock, emptyPBlock], 0⟩
      [EditorOp.delete, EditorOp.delete] (by decide)).2.2⟩

end Ambuda

namespace Ambuda

/-- C7 amended: parseXMLToDoc returns the single empty p-block document on
empty or whitespace-only input, and on a well-formed page element with no
child elements; it throws if and only if the input is neither empty nor
whitespace-only and either fails to parse as XML or has a non-page root; and
the visual block editor constructor falls back to the default document
whenever parsing throws. -/
theorem parseXMLToDoc_edge_behaviour (s : List Char) :
    (trimStr s = [] → parseXMLToDoc s = Except.ok defaultDoc) ∧
    (isPageNoChildElems (domParse s) = true → parseXMLToDoc s = Except.ok defaultDoc) ∧
    ((∃ e, parseXMLToDoc s = Except.error e) ↔
      (trimStr s ≠ [] ∧
        ((domParse s).isNone = true ∨ pageRootCheck (domParse s) = false))) ∧
    (∀ e, parseXMLToDoc s = Except.error e → initialBlockEditorDoc s = defaultDoc) := by
  refine ⟨?_, ?_, ?_, ?_⟩
  · intro h
    simp [parseXMLToDoc, h]
  · intro h
    by_cases htrim : trimStr s = []
    · simp [parseXMLToDoc, htrim]
    · cases hdp : domParse s with
      | none => simp [isPageNoChildElems, hdp] at h
      | some root =>
        cases root with
        | text t => simp [isPageNoChildElems, hdp] at h
        | elem tag attrs children =>
          simp only [isPageNoChildElems, hdp, Bool.and_eq_true, decide_eq_true_eq,
            List.isEmpty_iff] at h
          simp [parseXMLToDoc, htrim, hdp, h.1, h.2]
  · constructor
    · rintro ⟨e, he⟩
      by_cases htrim : trimStr s = []
      · simp [parseXMLToDoc, htrim] at he
      · refine ⟨htrim, ?_⟩
        cases hdp : domParse s with
        | none => simp [Option.isNone, hdp]
        | some root =>
          cases root with
          | text t => simp [pageRootCheck, hdp]
          | elem tag attrs children =>
            simp only [parseXMLToDoc, htrim, if_neg htrim, hdp] at he
            by_cases hpage : lowerStr tag = pageTag
            · rw [if_pos hpage] at he
              cases hmap : (elemChildren children).map blockOfElem with
              | nil => rw [hmap] at he; cases he
              | cons b bs => rw [hmap] at he; cases he
            · simp [pageRootCheck, hdp, hpage]
    · rintro ⟨htrim, hbad⟩
      simp only [parseXMLToDoc, if_neg htrim]
      cases hdp : domParse s with
      | none => exact ⟨(), rfl⟩
      | some root =>
        cases root with
        | text t => exact ⟨(), rfl⟩
        | elem tag attrs children =>
          have hpage : ¬ (lowerStr tag = pageTag) := by
            rcases hbad with h | h
            · rw [hdp] at h
              simp [Option.isNone] at h
            · rw [hdp] at h
              simpa [pageRootCheck] using h
          exact ⟨(), by simp [hpage]⟩
  · intro e he
    simp [initialBlockEditorDoc, he]

end Ambuda

namespace Ambuda

/-- Witness for C7: the empty string and a childless page both give the
default document, and an unterminated tag makes the constructor fall back. -/
theorem parseXMLToDoc_edge_behaviour_witness :
    parseXMLToDoc [] = Except.ok defaultDoc ∧
    parseXMLToDoc ("<page></page>".data) = Except.ok defaultDoc ∧
    initialBlockEditorDoc ['<'] = defaultDoc :=
  ⟨(parseXMLToDoc_edge_behaviour []).1 (by decide),
   (parseXMLToDoc_edge_behaviour ("<page></page>".data)).2.1 (by decide),
   (parseXMLToDoc_edge_behaviour ['<']).2.2.2 () (by decide)⟩

/-- Counterexample to C7 as stated: a whitespace-only string is non-empty
and is not parseable as XML, so the claimed iff would make parseXMLToDoc
throw on it, yet it returns the default document without throwing. -/
theorem parseXMLToDoc_whitespace_counterexample :
    ([' '] : List Char) ≠ [] ∧ (domParse [' ']).isNone = true ∧
    parseXMLToDoc [' '] = Except.ok defaultDoc :=
  ⟨by decide, by decide, by decide⟩

end Ambuda

namespace Ambuda

/-- Counterexample to C2 as stated: a block whose text attribute is the
empty string serializes without the attribute (the source tests truthiness),
so parsing the serialization yields text null instead of the empty string
and the round trip does not reproduce the document. -/
theorem parse_serialize_counterexample :
    parseXMLToDoc (serializeDocToXML [⟨['p'], some [], none, none, none, false, []⟩])
      ≠ Except.ok [⟨['p'], some [], none, none, none, false, []⟩] ∧
    parseXMLToDoc (serializeDocToXML [⟨['p'], some [], none, none, none, false, []⟩])
      = Except.ok [⟨['p'], none, none, none, none, false, []⟩] :=
  ⟨by decide, by decide⟩

/-- Counterexample to C1 as stated: a page whose inline content nests a fix
element inside an error element parses to a text run marked with both marks,
which re-serializes with the fix element outside the error element (mark
rank order), so the input string is not reproduced even though its blocks
already sit one per line. -/
theorem serialize_parse_counterexample :
    parseXMLToDoc ("<page>\n<p><error><fix>x</fix></error></p>\n</page>".data)
      = Except.ok [⟨['p'], none, none, none, none, false,
          [⟨['x'], ⟨true, true, false, false⟩⟩]⟩] ∧
    serializeDocToXML [⟨['p'], none, none, none, none, false,
          [⟨['x'], ⟨true, true, false, false⟩⟩]⟩]
      = "<page>\n<p><fix><error>x</error></fix></p>\n</page>".data ∧
    ("<page>\n<p><fix><error>x</error></fix></p>\n</page>".data : List Char)
      ≠ "<page>\n<p><error><fix>x</fix></error></p>\n</page>".data :=
  ⟨by decide, by decide, by decide⟩

end Ambuda

namespace Ambuda

theorem takeWhile_append_all {l1 l2 : List Char} {p : Char → Bool}
    (h : ∀ c ∈ l1, p c = true) :
    (l1 ++ l2).takeWhile p = l1 ++ l2.takeWhile p := by
  induction l1 with
  | nil => simp
  | cons c cs ih =>
    simp only [List.cons_append, List.takeWhile_cons, h c (by simp)]
    rw [ih (fun d hd => h d (by simp [hd]))]
    simp

theorem dropWhile_append_all {l1 l2 : List Char} {p : Char → Bool}
    (h : ∀ c ∈ l1, p c = true) :
    (l1 ++ l2).dropWhile p = l2.dropWhile p := by
  induction l1 with
  | nil => simp
  | cons c cs ih =>
    simp only [List.cons_append, List.dropWhile_cons, h c (by simp)]
    exact ih (fun d hd => h d (by simp [hd]))

theorem lexText (t : List Char) (h : ∀ c ∈ t, c ≠ '<') :
    ∀ (toks : List XMLToken) (buf rest : List Char),
      List.foldl lexStep (some ⟨toks, LexMode.inText buf⟩) (t ++ rest)
        = List.foldl lexStep (some ⟨toks, LexMode.inText (buf ++ t)⟩) rest := by
  induction t with
  | nil => intro toks buf rest; simp
  | cons c cs ih =>
    intro toks buf rest
    rw [List.cons_append, List.foldl_cons]
    have hc : c ≠ '<' := h c (by simp)
    show List.foldl lexStep (lexStep (some ⟨toks, LexMode.inText buf⟩) c) (cs ++ rest) = _
    rw [show lexStep (some ⟨toks, LexMode.inText buf⟩) c
        = some ⟨toks, LexMode.inText (buf ++ [c])⟩ from by simp [lexStep, hc]]
    rw [ih (fun d hd => h d (by simp [hd])) toks (buf ++ [c]) rest]
    simp

theorem lexTagChars (tc : List Char) (h : ∀ c ∈ tc, c ≠ '<' ∧ c ≠ '>') :
    ∀ (toks : List XMLToken) (buf rest : List Char),
      List.foldl lexStep (some ⟨toks, LexMode.inTag buf⟩) (tc ++ rest)
        = List.foldl lexStep (some ⟨toks, LexMode.inTag (buf ++ tc)⟩) rest := by
  induction tc with
  | nil => intro toks buf rest; simp
  | cons c cs ih =>
    intro toks buf rest
    rw [List.cons_append, List.foldl_cons]
    have hc := h c (by simp)
    show List.foldl lexStep (lexStep (some ⟨toks, LexMode.inTag buf⟩) c) (cs ++ rest) = _
    rw [show lexStep (some ⟨toks, LexMode.inTag buf⟩) c
        = some ⟨toks, LexMode.inTag (buf ++ [c])⟩ from by simp [lexStep, hc.1, hc.2]]
    rw [ih (fun d hd => h d (by simp [hd])) toks (buf ++ [c]) rest]
    simp

theorem lexTag (tc : List Char) (tok : XMLToken)
    (h : ∀ c ∈ tc, c ≠ '<' ∧ c ≠ '>') (hp : parseTagContent tc = some tok) :
    ∀ (toks : List XMLToken) (buf : List Char) (rest : List Char),
      List.foldl lexStep (some ⟨toks, LexMode.inText buf⟩) ('<' :: tc ++ '>' :: rest)
        = List.foldl lexStep (some ⟨toks ++ flushText buf ++ [tok], LexMode.inText []⟩)
            rest := by
  intro toks buf rest
  show List.foldl lexStep (some ⟨toks, LexMode.inText buf⟩) ('<' :: (tc ++ '>' :: rest)) = _
  rw [List.foldl_cons]
  rw [show lexStep (some ⟨toks, LexMode.inText buf⟩) '<'
      = some ⟨toks ++ flushText buf, LexMode.inTag []⟩ from by simp [lexStep]]
  rw [lexTagChars tc h (toks ++ flushText buf) [] ('>' :: rest)]
  rw [List.foldl_cons]
  rw [show lexStep (some ⟨toks ++ flushText buf, LexMode.inTag ([] ++ tc)⟩) '>'
      = some ⟨toks ++ flushText buf ++ [tok], LexMode.inText []⟩ from by
    simp [lexStep, hp]]

end Ambuda

namespace Ambuda

theorem isNameChar_facts (c : Char) (h : isNameChar c = true) :
    isWS c = false ∧ c ≠ '<' ∧ c ≠ '>' ∧ c ≠ '=' ∧ c ≠ '/' ∧ c ≠ quotChar := by
  refine ⟨?_, ?_, ?_, ?_, ?_, ?_⟩
  · by_contra hws
    have : c = ' ' ∨ c = '\n' ∨ c = '\t' ∨ c = '\r' := by
      simp [isWS] at hws
      tauto
    rcases this with rfl | rfl | rfl | rfl <;> simp [isNameChar] at h
  all_goals (rintro rfl; revert h; decide)

theorem attrNameChars (nm2 : List Char) (h : ∀ c ∈ nm2, isNameChar c = true) :
    ∀ (acc : List (List Char × List Char)) (nm rest : List Char),
      List.foldl attrStep (some (acc, AttrMode.name nm)) (nm2 ++ rest)
        = List.foldl attrStep (some (acc, AttrMode.name (nm ++ nm2))) rest := by
  induction nm2 with
  | nil => intro acc nm rest; simp
  | cons c cs ih =>
    intro acc nm rest
    show List.foldl attrStep (some (acc, AttrMode.name nm)) (c :: (cs ++ rest)) = _
    rw [List.foldl_cons]
    rw [show attrStep (some (acc, AttrMode.name nm)) c
        = some (acc, AttrMode.name (nm ++ [c])) from by
      simp [attrStep, h c (by simp)]]
    rw [ih (fun d hd => h d (by simp [hd])) acc (nm ++ [c]) rest]
    simp

theorem attrValueChars (v : List Char) (h : ∀ c ∈ v, c ≠ quotChar) :
    ∀ (acc : List (List Char × List Char)) (nm buf rest : List Char),
      List.foldl attrStep (some (acc, AttrMode.value nm buf)) (v ++ rest)
        = List.foldl attrStep (some (acc, AttrMode.value nm (buf ++ v))) rest := by
  induction v with
  | nil => intro acc nm buf rest; simp
  | cons c cs ih =>
    intro acc nm buf rest
    show List.foldl attrStep (some (acc, AttrMode.value nm buf)) (c :: (cs ++ rest)) = _
    rw [List.foldl_cons]
    rw [show attrStep (some (acc, AttrMode.value nm buf)) c
        = some (acc, AttrMode.value nm (buf ++ [c])) from by
      simp [attrStep, h c (by simp)]]
    rw [ih (fun d hd => h d (by simp [hd])) acc nm (buf ++ [c]) rest]
    simp

theorem attrSegment (n v : List Char) (hn : n ≠ []) (hnc : ∀ c ∈ n, isNameChar c = true) :
    ∀ (acc : List (List Char × List Char)) (rest : List Char),
      List.foldl attrStep (some (acc, AttrMode.between))
          ((' ' :: n ++ ('=' :: quotChar :: escapeXML v) ++ [quotChar]) ++ rest)
        = List.foldl attrStep (some (acc ++ [(n, v)], AttrMode.between)) rest := by
  intro acc rest
  obtain ⟨c0, n2, rfl⟩ : ∃ c0 n2, n = c0 :: n2 := by
    cases n with
    | nil => exact absurd rfl hn
    | cons a l => exact ⟨a, l, rfl⟩
  have hc0 := hnc c0 (by simp)
  simp only [List.cons_append, List.append_assoc, List.singleton_append, List.nil_append]
  rw [List.foldl_cons]
  rw [show attrStep (some (acc, AttrMode.between)) ' '
      = some (acc, AttrMode.between) from by simp [attrStep, isWS]]
  rw [List.foldl_cons]
  rw [show attrStep (some (acc, AttrMode.between)) c0
      = some (acc, AttrMode.name [c0]) from by
    simp [attrStep, (isNameChar_facts c0 hc0).1, hc0]]
  rw [attrNameChars n2 (fun d hd => hnc d (by simp [hd])) acc [c0]
    ('=' :: quotChar :: (escapeXML v ++ quotChar :: rest))]
  rw [List.foldl_cons]
  rw [show attrStep (some (acc, AttrMode.name ([c0] ++ n2))) '='
      = some (acc, AttrMode.afterEq ([c0] ++ n2)) from by
    simp [attrStep, show isNameChar '=' = false from by decide]]
  rw [List.foldl_cons]
  rw [show attrStep (some (acc, AttrMode.afterEq ([c0] ++ n2))) quotChar
      = some (acc, AttrMode.value ([c0] ++ n2) []) from by simp [attrStep]]
  rw [attrValueChars (escapeXML v)
    (fun d hd => by
      intro hEq
      have hsp := escapeXML_no_special v d hd
      rw [hEq] at hsp
      simp [isXMLSpecial] at hsp)
    acc ([c0] ++ n2) [] (quotChar :: rest)]
  rw [List.foldl_cons]
  rw [show attrStep (some (acc, AttrMode.value ([c0] ++ n2) ([] ++ escapeXML v))) quotChar
      = some (acc ++ [(c0 :: n2, v)], AttrMode.between) from by
    simp [attrStep, decode_escapeXML]]

theorem parseAttrs_print (attrs : List (List Char × List Char))
    (h : ∀ p ∈ attrs, p.1 ≠ [] ∧ ∀ c ∈ p.1, isNameChar c = true) :
    parseAttrs (printAttrs attrs) = some attrs := by
  suffices hfold : ∀ (acc : List (List Char × List Char)),
      List.foldl attrStep (some (acc, AttrMode.between)) (printAttrs attrs)
        = some (acc ++ attrs, AttrMode.between) by
    unfold parseAttrs
    rw [hfold []]
    simp
  induction attrs with
  | nil => intro acc; simp [printAttrs]
  | cons p ps ih =>
    intro acc
    have hp := h p (by simp)
    have hseg := attrSegment p.1 p.2 hp.1 hp.2 acc
      ((ps.map (fun q => ' ' :: q.1 ++ ('=' :: quotChar :: escapeXML q.2) ++ [quotChar])).flatten)
    rw [show printAttrs (p :: ps)
        = (' ' :: p.1 ++ ('=' :: quotChar :: escapeXML p.2) ++ [quotChar])
          ++ (ps.map (fun q => ' ' :: q.1 ++ ('=' :: quotChar :: escapeXML q.2) ++ [quotChar])).flatten
        from by simp [printAttrs]]
    rw [hseg]
    rw [show (ps.map (fun q => ' ' :: q.1 ++ ('=' :: quotChar :: escapeXML q.2) ++ [quotChar])).flatten
        = printAttrs ps from rfl]
    rw [ih (fun q hq => h q (by simp [hq])) (acc ++ [(p.1, p.2)])]
    simp

end Ambuda

namespace Ambuda

theorem printAttrs_nil : printAttrs [] = [] := rfl

theorem printAttrs_cons (p : List Char × List Char)
    (ps : List (List Char × List Char)) :
    printAttrs (p :: ps)
      = (' ' :: p.1 ++ ('=' :: quotChar :: escapeXML p.2) ++ [quotChar])
          ++ printAttrs ps := by
  simp [printAttrs]

theorem printAttrs_ne_nil (a : List Char × List Char)
    (as : List (List Char × List Char)) : printAttrs (a :: as) ≠ [] := by
  rw [printAttrs_cons]
  simp

theorem printAttrs_head (a : List Char × List Char)
    (as : List (List Char × List Char)) :
    ∃ tl, printAttrs (a :: as) = ' ' :: tl := by
  rw [printAttrs_cons]
  exact ⟨_, rfl⟩

theorem printAttrs_getLast (attrs : List (List Char × List Char))
    (h : attrs ≠ []) : (printAttrs attrs).getLast? = some quotChar := by
  induction attrs with
  | nil => exact absurd rfl h
  | cons a as ih =>
    rw [printAttrs_cons]
    cases as with
    | nil =>
      rw [printAttrs_nil, List.append_nil]
      rw [show (' ' :: a.1 ++ ('=' :: quotChar :: escapeXML a.2) ++ [quotChar])
          = (' ' :: a.1 ++ ('=' :: quotChar :: escapeXML a.2)) ++ [quotChar] from by simp]
      exact List.getLast?_concat _
    | cons b bs =>
      rw [List.append_assoc, List.getLast?_append, List.getLast?_append, ih (by simp)]
      simp

theorem printAttrs_no_ltgt (attrs : List (List Char × List Char))
    (h : ∀ p ∈ attrs, ∀ c ∈ p.1, isNameChar c = true) :
    ∀ c ∈ printAttrs attrs, c ≠ '<' ∧ c ≠ '>' := by
  intro c hc
  unfold printAttrs at hc
  rw [List.mem_flatten] at hc
  obtain ⟨seg, hseg, hcseg⟩ := hc
  rw [List.mem_map] at hseg
  obtain ⟨p, hp, rfl⟩ := hseg
  have hcases : c = ' ' ∨ c ∈ p.1 ∨ c = '=' ∨ c = quotChar ∨ c ∈ escapeXML p.2 := by
    revert hcseg
    simp only [List.cons_append, List.mem_cons, List.mem_append, List.mem_singleton]
    tauto
  rcases hcases with rfl | hc1 | rfl | rfl | hc1
  · exact ⟨by decide, by decide⟩
  · have hf := isNameChar_facts c (h p hp c hc1)
    exact ⟨hf.2.1, hf.2.2.1⟩
  · exact ⟨by decide, by decide⟩
  · exact ⟨by decide, by decide⟩
  · have hsp := escapeXML_no_special p.2 c hc1
    refine ⟨?_, ?_⟩
    · intro hEq; rw [hEq] at hsp; simp [isXMLSpecial] at hsp
    · intro hEq; rw [hEq] at hsp; simp [isXMLSpecial] at hsp

theorem parseTagContent_close (tag : List Char) (hne : tag ≠ [])
    (hnc : ∀ c ∈ tag, isNameChar c = true) :
    parseTagContent ('/' :: tag) = some (XMLToken.tagClose tag) := by
  simp only [parseTagContent, if_pos rfl]
  simp [hne, List.all_eq_true.mpr (fun c hc => hnc c hc)]

theorem parseTagContent_open (tag : List Char)
    (attrs : List (List Char × List Char)) (hne : tag ≠ [])
    (hnc : ∀ c ∈ tag, isNameChar c = true)
    (hattrs : ∀ p ∈ attrs, p.1 ≠ [] ∧ ∀ c ∈ p.1, isNameChar c = true) :
    parseTagContent (tag ++ printAttrs attrs) = some (XMLToken.tagOpen tag attrs) := by
  obtain ⟨t0, ts, rfl⟩ : ∃ t0 ts, tag = t0 :: ts := by
    cases tag with
    | nil => exact absurd rfl hne
    | cons a l => exact ⟨a, l, rfl⟩
  have ht0 := hnc t0 (by simp)
  show parseTagContent (t0 :: (ts ++ printAttrs attrs)) = _
  simp only [parseTagContent]
  rw [if_neg (by
    intro hEq
    rw [hEq] at ht0
    revert ht0
    decide)]
  have htake : (t0 :: (ts ++ printAttrs attrs)).takeWhile isNameChar
      = (t0 :: ts) ++ (printAttrs attrs).takeWhile isNameChar := by
    show ((t0 :: ts) ++ printAttrs attrs).takeWhile isNameChar = _
    exact takeWhile_append_all hnc
  have hdrop : (t0 :: (ts ++ printAttrs attrs)).dropWhile isNameChar
      = (printAttrs attrs).dropWhile isNameChar := by
    show ((t0 :: ts) ++ printAttrs attrs).dropWhile isNameChar = _
    exact dropWhile_append_all hnc
  cases attrs with
  | nil =>
    rw [printAttrs_nil] at htake hdrop ⊢
    rw [htake, hdrop]
    simp
  | cons a as =>
    obtain ⟨tl, htl⟩ := printAttrs_head a as
    have hta : (printAttrs (a :: as)).takeWhile isNameChar = [] := by
      rw [htl]
      simp [List.takeWhile_cons, isNameChar, isWS]
    have hda : (printAttrs (a :: as)).dropWhile isNameChar = printAttrs (a :: as) := by
      rw [htl]
      simp [List.dropWhile_cons, isNameChar]
    rw [hta] at htake
    rw [hda] at hdrop
    rw [htake, hdrop, printAttrs_getLast (a :: as) (by simp)]
    simp [show ¬ (quotChar = '/') from by decide, parseAttrs_print (a :: as) hattrs]

end Ambuda

namespace Ambuda

theorem escChar_ne_nil (c : Char) : escChar c ≠ [] := by
  unfold escChar
  split
  · simp [ampEntity]
  split
  · simp [ltEntity]
  split
  · simp [gtEntity]
  split
  · simp [quotEntity]
  split
  · simp [aposEntity]
  · simp

theorem escapeXML_ne_nil (s : List Char) (h : s ≠ []) : escapeXML s ≠ [] := by
  obtain ⟨c, cs, rfl⟩ : ∃ c cs, s = c :: cs := by
    cases s with
    | nil => exact absurd rfl h
    | cons a l => exact ⟨a, l, rfl⟩
  rw [show (c :: cs) = [c] ++ cs from rfl, escapeXML_append, escapeXML_singleton]
  intro hcontra
  exact escChar_ne_nil c (List.append_eq_nil.mp hcontra).1

theorem flushText_escape (txt : List Char) (h : txt ≠ []) :
    flushText (escapeXML txt) = [XMLToken.text txt] := by
  unfold flushText
  rw [if_neg (escapeXML_ne_nil txt h), decode_escapeXML]

theorem escapeXML_no_ltgt (s : List Char) : ∀ c ∈ escapeXML s, c ≠ '<' := by
  intro c hc hEq
  have hsp := escapeXML_no_special s c hc
  rw [hEq] at hsp
  simp [isXMLSpecial] at hsp

theorem nameChars_no_ltgt (t : List Char) (h : ∀ c ∈ t, isNameChar c = true) :
    ∀ c ∈ t, c ≠ '<' ∧ c ≠ '>' := by
  intro c hc
  have := isNameChar_facts c (h c hc)
  exact ⟨this.2.1, this.2.2.1⟩

theorem wrappedToks_append (ts : List (List Char)) (t : List Char) (txt : List Char) :
    wrappedToks (ts ++ [t]) txt
      = XMLToken.tagOpen t [] :: wrappedToks ts txt ++ [XMLToken.tagClose t] := by
  simp [wrappedToks, List.foldl_append]

theorem parseTag_bare (t : List Char) (hne : t ≠ [])
    (hnc : ∀ c ∈ t, isNameChar c = true) :
    parseTagContent t = some (XMLToken.tagOpen t []) := by
  have h := parseTagContent_open t [] hne hnc (by simp)
  rwa [printAttrs_nil, List.append_nil] at h

theorem lexWraps (txt : List Char) (htxt : txt ≠ []) :
    ∀ (tags : List (List Char)),
      (∀ tg ∈ tags, tg ≠ [] ∧ ∀ c ∈ tg, isNameChar c = true) → tags ≠ [] →
      ∀ (toks : List XMLToken) (buf rest : List Char),
        List.foldl lexStep (some ⟨toks, LexMode.inText buf⟩)
            ((tags.foldl (fun acc tg => wrapTag tg acc) (escapeXML txt)) ++ rest)
          = List.foldl lexStep
              (some ⟨toks ++ flushText buf ++ wrappedToks tags txt, LexMode.inText []⟩)
              rest := by
  intro tags
  induction tags using List.reverseRecOn with
  | nil => intro _ hne; exact absurd rfl hne
  | append_singleton ts t ih =>
    intro hwf _ toks buf rest
    have ht := hwf t (by simp)
    have hltgt : ∀ c ∈ t, c ≠ '<' ∧ c ≠ '>' := nameChars_no_ltgt t ht.2
    have hparse : parseTagContent t = some (XMLToken.tagOpen t []) :=
      parseTag_bare t ht.1 ht.2
    have hcltgt : ∀ c ∈ ('/' :: t), c ≠ '<' ∧ c ≠ '>' := by
      intro c hc
      rcases List.mem_cons.mp hc with rfl | hc2
      · exact ⟨by decide, by decide⟩
      · exact hltgt c hc2
    have hcparse : parseTagContent ('/' :: t) = some (XMLToken.tagClose t) :=
      parseTagContent_close t ht.1 ht.2
    rw [show (List.foldl (fun acc tg => wrapTag tg acc) (escapeXML txt) (ts ++ [t])) ++ rest
        = ('<' :: t) ++ ('>' ::
            ((List.foldl (fun acc tg => wrapTag tg acc) (escapeXML txt) ts)
              ++ (('<' :: ('/' :: t)) ++ ('>' :: rest)))) from by
      simp [List.foldl_append, wrapTag]]
    rw [lexTag t (XMLToken.tagOpen t []) hltgt hparse toks buf
      ((List.foldl (fun acc tg => wrapTag tg acc) (escapeXML txt) ts)
        ++ (('<' :: ('/' :: t)) ++ ('>' :: rest)))]
    by_cases hts : ts = []
    · subst hts
      rw [show List.foldl (fun acc tg => wrapTag tg acc) (escapeXML txt) [] = escapeXML txt
          from rfl]
      rw [lexText (escapeXML txt) (escapeXML_no_ltgt txt) _ []
        (('<' :: ('/' :: t)) ++ ('>' :: rest))]
      rw [lexTag ('/' :: t) (XMLToken.tagClose t) hcltgt hcparse _ _ rest]
      simp only [List.nil_append]
      rw [flushText_escape txt htxt]
      rw [show wrappedToks [t] txt
          = XMLToken.tagOpen t [] :: XMLToken.text txt :: [XMLToken.tagClose t] from rfl]
      simp
    · rw [ih (fun tg htg => hwf tg (by simp [htg])) hts _ []
        (('<' :: ('/' :: t)) ++ ('>' :: rest))]
      rw [lexTag ('/' :: t) (XMLToken.tagClose t) hcltgt hcparse _ _ rest]
      rw [show flushText ([] : List Char) = [] from rfl]
      rw [wrappedToks_append ts t txt]
      simp

end Ambuda

namespace Ambuda

theorem marksList_eq_nil (m : MarkSet) : marksList m = [] ↔ m = noMarks := by
  obtain ⟨e, f, r, fl⟩ := m
  cases e <;> cases f <;> cases r <;> cases fl <;> simp [marksList, noMarks]

theorem marksList_mem_cases (m : MarkSet) (tg : List Char) (h : tg ∈ marksList m) :
    tg = errorTag ∨ tg = fixTag ∨ tg = refTag ∨ tg = flagTag := by
  obtain ⟨e, f, r, fl⟩ := m
  cases e <;> cases f <;> cases r <;> cases fl <;> simp [marksList] at h <;> tauto

theorem marksList_WF (m : MarkSet) :
    ∀ tg ∈ marksList m, tg ≠ [] ∧ ∀ c ∈ tg, isNameChar c = true := by
  intro tg htg
  rcases marksList_mem_cases m tg htg with rfl | rfl | rfl | rfl <;>
    exact ⟨by decide, List.all_eq_true.mp (by decide)⟩

theorem adjacentDistinct_tail (x : InlineRun) (xs : List InlineRun)
    (h : adjacentDistinct (x :: xs) = true) : adjacentDistinct xs = true := by
  cases xs with
  | nil => rfl
  | cons y ys =>
    simp only [adjacentDistinct, Bool.and_eq_true] at h
    exact h.2

theorem serializeInlineContent_nil : serializeInlineContent [] = [] := rfl

theorem serializeInlineContent_cons (r : InlineRun) (rs : List InlineRun) :
    serializeInlineContent (r :: rs) = serializeRun r ++ serializeInlineContent rs := by
  simp [serializeInlineContent]

theorem inlineToks_nil : inlineToks [] = [] := rfl

theorem inlineToks_cons (r : InlineRun) (rs : List InlineRun) :
    inlineToks (r :: rs)
      = wrappedToks (marksList r.marks) r.text ++ inlineToks rs := by
  simp [inlineToks]

theorem runsLex : ∀ (content : List InlineRun),
    (∀ r ∈ content, r.text ≠ []) → adjacentDistinct content = true →
    ∀ (toks : List XMLToken) (rest : List Char),
      List.foldl lexStep (some ⟨toks, LexMode.inText []⟩)
          (serializeInlineContent content ++ '<' :: rest)
        = List.foldl lexStep (some ⟨toks ++ inlineToks content, LexMode.inText []⟩)
            ('<' :: rest)
  | [], _, _, toks, rest => by
    simp [serializeInlineContent_nil, inlineToks_nil]
  | [r], hr, _, toks, rest => by
    have hrt : r.text ≠ [] := hr r (by simp)
    by_cases hm : marksList r.marks = []
    · rw [show serializeInlineContent [r] ++ '<' :: rest
          = escapeXML r.text ++ ('<' :: rest) from by
        simp [serializeInlineContent_cons, serializeInlineContent_nil, serializeRun, hm]]
      rw [lexText (escapeXML r.text) (escapeXML_no_ltgt r.text) toks [] ('<' :: rest)]
      rw [List.foldl_cons, List.foldl_cons]
      congr 1
      rw [show lexStep (some ⟨toks, LexMode.inText ([] ++ escapeXML r.text)⟩) '<'
          = some ⟨toks ++ flushText (escapeXML r.text), LexMode.inTag []⟩ from by
        simp [lexStep]]
      rw [flushText_escape r.text hrt]
      rw [show lexStep (some ⟨toks ++ inlineToks [r], LexMode.inText []⟩) '<'
          = some ⟨toks ++ inlineToks [r] ++ flushText [], LexMode.inTag []⟩ from by
        simp [lexStep]]
      simp [inlineToks_cons, inlineToks_nil, wrappedToks, hm, flushText]
    · rw [show serializeInlineContent [r] ++ '<' :: rest
          = ((marksList r.marks).foldl (fun acc tg => wrapTag tg acc)
              (escapeXML r.text)) ++ ('<' :: rest) from by
        simp [serializeInlineContent_cons, serializeInlineContent_nil, serializeRun]]
      rw [lexWraps r.text hrt (marksList r.marks) (marksList_WF r.marks) hm
        toks [] ('<' :: rest)]
      simp [inlineToks_cons, inlineToks_nil, flushText]
  | r1 :: r2 :: more, hr, hdist, toks, rest => by
    have hrt1 : r1.text ≠ [] := hr r1 (by simp)
    have hrt2 : r2.text ≠ [] := hr r2 (by simp)
    have hd12 : r1.marks ≠ r2.marks := by
      simp only [adjacentDistinct, Bool.and_eq_true, decide_eq_true_eq] at hdist
      exact hdist.1
    by_cases hm1 : marksList r1.marks = []
    · have hm2 : marksList r2.marks ≠ [] := by
        intro hc
        exact hd12 (((marksList_eq_nil r1.marks).mp hm1).trans
          ((marksList_eq_nil r2.marks).mp hc).symm)
      rw [show serializeInlineContent (r1 :: r2 :: more) ++ '<' :: rest
          = escapeXML r1.text
            ++ (((marksList r2.marks).foldl (fun acc tg => wrapTag tg acc)
                  (escapeXML r2.text))
              ++ (serializeInlineContent more ++ '<' :: rest)) from by
        simp [serializeInlineContent_cons, serializeRun, hm1]]
      rw [lexText (escapeXML r1.text) (escapeXML_no_ltgt r1.text) toks [] _]
      rw [lexWraps r2.text hrt2 (marksList r2.marks) (marksList_WF r2.marks) hm2
        toks ([] ++ escapeXML r1.text) (serializeInlineContent more ++ '<' :: rest)]
      rw [show ([] : List Char) ++ escapeXML r1.text = escapeXML r1.text from by simp]
      rw [flushText_escape r1.text hrt1]
      rw [runsLex more (fun r hmem => hr r (by simp [hmem]))
        (adjacentDistinct_tail r2 more (adjacentDistinct_tail r1 (r2 :: more) hdist))
        (toks ++ [XMLToken.text r1.text] ++ wrappedToks (marksList r2.marks) r2.text)
        rest]
      simp [inlineToks_cons, wrappedToks, hm1]
    · rw [show serializeInlineContent (r1 :: r2 :: more) ++ '<' :: rest
          = ((marksList r1.marks).foldl (fun acc tg => wrapTag tg acc)
              (escapeXML r1.text))
            ++ (serializeInlineContent (r2 :: more) ++ '<' :: rest) from by
        simp [serializeInlineContent_cons, serializeRun]]
      rw [lexWraps r1.text hrt1 (marksList r1.marks) (marksList_WF r1.marks) hm1
        toks [] (serializeInlineContent (r2 :: more) ++ '<' :: rest)]
      rw [runsLex (r2 :: more) (fun r hmem => hr r (by simp [hmem]))
        (adjacentDistinct_tail r1 (r2 :: more) hdist)
        (toks ++ flushText [] ++ wrappedToks (marksList r1.marks) r1.text) rest]
      simp [inlineToks_cons, flushText]
termination_by content _ _ _ _ => content.length

end Ambuda

namespace Ambuda

theorem joinSpace_flatten : ∀ (q : List Char) (ps : List (List Char)),
    ' ' :: joinSpace (q :: ps)
      = (' ' :: q) ++ (ps.map (fun s => ' ' :: s)).flatten
  | q, [] => by simp [joinSpace]
  | q, p :: ps => by
    rw [show joinSpace (q :: p :: ps) = q ++ ' ' :: joinSpace (p :: ps) from rfl]
    rw [show (' ' :: (q ++ ' ' :: joinSpace (p :: ps)))
        = (' ' :: q) ++ (' ' :: joinSpace (p :: ps)) from rfl]
    rw [joinSpace_flatten p ps]
    simp

theorem printAttrs_eq_flatten (attrs : List (List Char × List Char)) :
    printAttrs attrs
      = ((attrs.map (fun p => attrPart p.1 p.2)).map (fun s => ' ' :: s)).flatten := by
  unfold printAttrs
  rw [List.map_map]
  congr 1

theorem optSeg_map_attrPart (o : Option (List Char)) (nm : List Char) :
    (optSeg o nm).map (fun p => attrPart p.1 p.2)
      = (match o with
          | some t => if t = [] then [] else [attrPart nm t]
          | none => []) := by
  cases o with
  | none => rfl
  | some t => by_cases ht : t = [] <;> simp [optSeg, ht]

theorem blockAttrParts_eq_map (b : Block) :
    blockAttrParts b = (blockAttrsList b).map (fun p => attrPart p.1 p.2) := by
  unfold blockAttrParts blockAttrsList
  simp only [List.map_append, optSeg_map_attrPart]
  rw [show (mergeSeg b).map (fun p => attrPart p.1 p.2)
      = (if b.merge_next then [attrPart mergeNextAttr trueStr] else []) from by
    cases hmn : b.merge_next <;> simp [mergeSeg, hmn]]
  simp

theorem attrsStr_eq (b : Block) :
    (if blockAttrParts b = [] then []
      else ' ' :: joinSpace (blockAttrParts b)) = printAttrs (blockAttrsList b) := by
  rw [blockAttrParts_eq_map, printAttrs_eq_flatten]
  cases h : blockAttrsList b with
  | nil => simp
  | cons a as =>
    simp only [List.map_cons]
    rw [if_neg (by simp)]
    rw [joinSpace_flatten (attrPart a.1 a.2) (as.map (fun p => attrPart p.1 p.2))]
    simp

theorem mem_optSeg {q : List Char × List Char} {o : Option (List Char)}
    {nm : List Char} (h : q ∈ optSeg o nm) : q.1 = nm ∧ o = some q.2 := by
  cases o with
  | none => simp [optSeg] at h
  | some t =>
    by_cases ht : t = []
    · simp [optSeg, ht] at h
    · simp [optSeg, ht] at h
      rw [h]
      exact ⟨rfl, rfl⟩

theorem blockAttrsList_names (b : Block) :
    ∀ q ∈ blockAttrsList b, q.1 ≠ [] ∧ ∀ c ∈ q.1, isNameChar c = true := by
  intro q hq
  have hname : q.1 = textAttr ∨ q.1 = nAttr ∨ q.1 = markAttr ∨ q.1 = langAttr
      ∨ q.1 = mergeNextAttr := by
    simp only [blockAttrsList, List.mem_append] at hq
    rcases hq with h | h | h | h | h
    · exact Or.inl (mem_optSeg h).1
    · exact Or.inr (Or.inl (mem_optSeg h).1)
    · exact Or.inr (Or.inr (Or.inl (mem_optSeg h).1))
    · exact Or.inr (Or.inr (Or.inr (Or.inl (mem_optSeg h).1)))
    · refine Or.inr (Or.inr (Or.inr (Or.inr ?_)))
      revert h
      cases hmn : b.merge_next <;> simp [mergeSeg, hmn]
      intro h
      rw [h]
  rcases hname with h | h | h | h | h <;> rw [h] <;>
    exact ⟨by decide, List.all_eq_true.mp (by decide)⟩

theorem typeOf_WF (b : Block) (h : b.type.all isNameChar = true) :
    typeOf b ≠ [] ∧ ∀ c ∈ typeOf b, isNameChar c = true := by
  by_cases ht : b.type = []
  · rw [show typeOf b = pTag from by simp [typeOf, ht]]
    exact ⟨by decide, List.all_eq_true.mp (by decide)⟩
  · rw [show typeOf b = b.type from by simp [typeOf, ht]]
    exact ⟨ht, List.all_eq_true.mp h⟩

end Ambuda

namespace Ambuda

theorem validBlock_facts (b : Block) (h : validBlock b = true) :
    b.type ≠ [] ∧ b.type.all isNameChar = true ∧ lowerStr b.type = b.type
      ∧ b.text ≠ some [] ∧ b.n ≠ some [] ∧ b.mark ≠ some [] ∧ b.lang ≠ some []
      ∧ (∀ r ∈ b.content, r.text ≠ []) ∧ adjacentDistinct b.content = true := by
  simp only [validBlock, Bool.and_eq_true, decide_eq_true_eq,
    List.all_eq_true] at h
  refine ⟨h.1.1.1.1.1.1.1.1, ?_, h.1.1.1.1.1.1.2, h.1.1.1.1.1.2, h.1.1.1.1.2,
    h.1.1.1.2, h.1.1.2, ?_, h.2⟩
  · exact List.all_eq_true.mpr h.1.1.1.1.1.1.1.2
  · intro r hr
    exact h.1.2 r hr

theorem blockLex (b : Block) (hb : validBlock b = true) :
    ∀ (toks : List XMLToken) (buf rest : List Char),
      List.foldl lexStep (some ⟨toks, LexMode.inText buf⟩) (serializeBlock b ++ rest)
        = List.foldl lexStep
            (some ⟨toks ++ flushText buf ++ blockToks b, LexMode.inText []⟩) rest := by
  obtain ⟨htyne0, htync0, _, _, _, _, _, htexts, hdist⟩ := validBlock_facts b hb
  have htyWF := typeOf_WF b htync0
  have htyne := htyWF.1
  have htync := htyWF.2
  intro toks buf rest
  have hltgt : ∀ c ∈ typeOf b ++ printAttrs (blockAttrsList b), c ≠ '<' ∧ c ≠ '>' := by
    intro c hc
    rcases List.mem_append.mp hc with hc1 | hc2
    · exact nameChars_no_ltgt (typeOf b) htync c hc1
    · exact printAttrs_no_ltgt (blockAttrsList b)
        (fun q hq => (blockAttrsList_names b q hq).2) c hc2
  have hopen : parseTagContent (typeOf b ++ printAttrs (blockAttrsList b))
      = some (XMLToken.tagOpen (typeOf b) (blockAttrsList b)) :=
    parseTagContent_open (typeOf b) (blockAttrsList b) htyne htync
      (blockAttrsList_names b)
  have hcltgt : ∀ c ∈ '/' :: typeOf b, c ≠ '<' ∧ c ≠ '>' := by
    intro c hc
    rcases List.mem_cons.mp hc with rfl | hc2
    · exact ⟨by decide, by decide⟩
    · exact nameChars_no_ltgt (typeOf b) htync c hc2
  have hclose : parseTagContent ('/' :: typeOf b)
      = some (XMLToken.tagClose (typeOf b)) :=
    parseTagContent_close (typeOf b) htyne htync
  rw [show serializeBlock b ++ rest
      = ('<' :: (typeOf b ++ printAttrs (blockAttrsList b)))
        ++ ('>' :: (serializeInlineContent b.content
          ++ '<' :: (('/' :: typeOf b) ++ ('>' :: rest)))) from by
    simp only [serializeBlock]
    rw [attrsStr_eq b]
    simp]
  rw [lexTag (typeOf b ++ printAttrs (blockAttrsList b))
    (XMLToken.tagOpen (typeOf b) (blockAttrsList b)) hltgt hopen toks buf
    (serializeInlineContent b.content
      ++ '<' :: (('/' :: typeOf b) ++ ('>' :: rest)))]
  rw [runsLex b.content htexts hdist
    (toks ++ flushText buf ++ [XMLToken.tagOpen (typeOf b) (blockAttrsList b)])
    (('/' :: typeOf b) ++ ('>' :: rest))]
  rw [show ('<' :: (('/' :: typeOf b) ++ ('>' :: rest)))
      = ('<' :: ('/' :: typeOf b)) ++ ('>' :: rest) from rfl]
  rw [lexTag ('/' :: typeOf b) (XMLToken.tagClose (typeOf b)) hcltgt hclose
    (toks ++ flushText buf ++ [XMLToken.tagOpen (typeOf b) (blockAttrsList b)]
      ++ inlineToks b.content) [] rest]
  simp [blockToks, flushText]

end Ambuda

namespace Ambuda

theorem decode_newline : decodeXMLEntities ['\n'] = ['\n'] := by decide

theorem flushText_newline : flushText ['\n'] = [XMLToken.text ['\n']] := by
  simp [flushText, decode_newline]

theorem blocksLex : ∀ (bs : List Block), bs.all validBlock = true → bs ≠ [] →
    ∀ (toks : List XMLToken) (rest : List Char),
      List.foldl lexStep (some ⟨toks, LexMode.inText ['\n']⟩)
          (joinNL (bs.map serializeBlock) ++ ('\n' :: ('<' :: rest)))
        = List.foldl lexStep
            (some ⟨toks
              ++ (bs.map (fun b => XMLToken.text ['\n'] :: blockToks b)).flatten
              ++ [XMLToken.text ['\n']], LexMode.inText []⟩) ('<' :: rest)
  | [], _, hne, _, _ => absurd rfl hne
  | [b], hall, _, toks, rest => by
    have hb : validBlock b = true := by simpa using hall
    rw [show joinNL ([b].map serializeBlock) ++ ('\n' :: ('<' :: rest))
        = serializeBlock b ++ ('\n' :: ('<' :: rest)) from by simp [joinNL]]
    rw [blockLex b hb toks ['\n'] ('\n' :: ('<' :: rest))]
    rw [List.foldl_cons]
    rw [show lexStep (some ⟨toks ++ flushText ['\n'] ++ blockToks b,
          LexMode.inText []⟩) '\n'
        = some ⟨toks ++ flushText ['\n'] ++ blockToks b,
            LexMode.inText ['\n']⟩ from by simp [lexStep]]
    rw [List.foldl_cons, List.foldl_cons]
    congr 1
    simp [lexStep, flushText_newline, flushText, decode_newline]
  | b1 :: b2 :: bs, hall, _, toks, rest => by
    have hb1 : validBlock b1 = true := by
      simp only [List.all_cons, Bool.and_eq_true] at hall
      exact hall.1
    have hall2 : (b2 :: bs).all validBlock = true := by
      simp only [List.all_cons, Bool.and_eq_true] at hall ⊢
      exact hall.2
    rw [show joinNL ((b1 :: b2 :: bs).map serializeBlock) ++ ('\n' :: ('<' :: rest))
        = serializeBlock b1 ++ ('\n' :: (joinNL ((b2 :: bs).map serializeBlock)
            ++ ('\n' :: ('<' :: rest)))) from by simp [joinNL]]
    rw [blockLex b1 hb1 toks ['\n']
      ('\n' :: (joinNL ((b2 :: bs).map serializeBlock) ++ ('\n' :: ('<' :: rest))))]
    rw [List.foldl_cons]
    rw [show lexStep (some ⟨toks ++ flushText ['\n'] ++ blockToks b1,
          LexMode.inText []⟩) '\n'
        = some ⟨toks ++ flushText ['\n'] ++ blockToks b1,
            LexMode.inText ['\n']⟩ from by simp [lexStep]]
    rw [blocksLex (b2 :: bs) hall2 (by simp)
      (toks ++ flushText ['\n'] ++ blockToks b1) rest]
    simp [flushText_newline]
termination_by bs _ _ _ _ => bs.length

theorem validDoc_facts (d : List Block) (h : validDoc d = true) :
    d ≠ [] ∧ d.all validBlock = true := by
  simp only [validDoc, Bool.and_eq_true, decide_eq_true_eq] at h
  exact h

theorem docLex (d : List Block) (hd : validDoc d = true) :
    lexXML (serializeDocToXML d) = some (pageToks d) := by
  obtain ⟨hdne, hall⟩ := validDoc_facts d hd
  have hpnc : ∀ c ∈ pageTag, isNameChar c = true := List.all_eq_true.mp (by decide)
  have hmain : List.foldl lexStep (some ⟨[], LexMode.inText []⟩) (serializeDocToXML d)
      = some ⟨pageToks d, LexMode.inText []⟩ := by
    rw [show serializeDocToXML d
        = ('<' :: pageTag) ++ ('>' :: ('\n' :: (joinNL (d.map serializeBlock)
            ++ ('\n' :: ('<' :: (('/' :: pageTag)
              ++ ('>' :: ([] : List Char)))))))) from by
      simp [serializeDocToXML]]
    rw [lexTag pageTag (XMLToken.tagOpen pageTag [])
      (nameChars_no_ltgt pageTag hpnc) (parseTag_bare pageTag (by decide) hpnc)
      [] []
      ('\n' :: (joinNL (d.map serializeBlock)
        ++ ('\n' :: ('<' :: (('/' :: pageTag) ++ ('>' :: ([] : List Char)))))))]
    rw [show (some ⟨[] ++ flushText [] ++ [XMLToken.tagOpen pageTag []],
          LexMode.inText []⟩ : Option LexSt)
        = some ⟨[XMLToken.tagOpen pageTag []], LexMode.inText []⟩ from by
      simp [flushText]]
    rw [List.foldl_cons]
    rw [show lexStep (some ⟨[XMLToken.tagOpen pageTag []], LexMode.inText []⟩) '\n'
        = some ⟨[XMLToken.tagOpen pageTag []], LexMode.inText ['\n']⟩ from by
      simp [lexStep]]
    rw [blocksLex d hall hdne [XMLToken.tagOpen pageTag []]
      (('/' :: pageTag) ++ ('>' :: ([] : List Char)))]
    rw [show ('<' :: (('/' :: pageTag) ++ ('>' :: ([] : List Char))))
        = ('<' :: ('/' :: pageTag)) ++ ('>' :: ([] : List Char)) from rfl]
    rw [lexTag ('/' :: pageTag) (XMLToken.tagClose pageTag)
      (by
        intro c hc
        rcases List.mem_cons.mp hc with rfl | hc2
        · exact ⟨by decide, by decide⟩
        · exact nameChars_no_ltgt pageTag hpnc c hc2)
      (parseTagContent_close pageTag (by decide) hpnc)
      ([XMLToken.tagOpen pageTag []]
        ++ (d.map (fun b => XMLToken.text ['\n'] :: blockToks b)).flatten
        ++ [XMLToken.text ['\n']]) [] []]
    simp [pageToks, flushText]
  simp [lexXML, hmain, flushText]

end Ambuda

namespace Ambuda

theorem appendsNode_text (t : List Char) :
    AppendsNode [XMLToken.text t] (XNode.text t) := by
  intro fr stack roots
  simp [domStep]

theorem appendsNodes_nil : AppendsNodes [] [] := by
  intro fr stack roots
  simp

theorem appendsNode_toNodes {toks : List XMLToken} {n : XNode}
    (h : AppendsNode toks n) : AppendsNodes toks [n] := h

theorem appendsNodes_append {t1 t2 : List XMLToken} {n1 n2 : List XNode}
    (h1 : AppendsNodes t1 n1) (h2 : AppendsNodes t2 n2) :
    AppendsNodes (t1 ++ t2) (n1 ++ n2) := by
  intro fr stack roots
  rw [List.foldl_append, h1 fr stack roots,
    h2 ⟨fr.tag, fr.attrs, fr.children ++ n1⟩ stack roots]
  simp

theorem appendsNode_wrap (tg : List Char) {toksIn : List XMLToken} {node : XNode}
    (h : AppendsNode toksIn node) :
    AppendsNode (XMLToken.tagOpen tg [] :: toksIn ++ [XMLToken.tagClose tg])
      (XNode.elem tg [] [node]) := by
  intro fr stack roots
  rw [show (XMLToken.tagOpen tg [] :: toksIn ++ [XMLToken.tagClose tg])
      = XMLToken.tagOpen tg [] :: (toksIn ++ [XMLToken.tagClose tg]) from rfl]
  rw [List.foldl_cons]
  rw [show domStep (some ⟨fr :: stack, roots⟩) (XMLToken.tagOpen tg [])
      = some ⟨(⟨tg, [], []⟩ : XFrame) :: fr :: stack, roots⟩ from by
    simp [domStep]]
  rw [List.foldl_append]
  rw [h ⟨tg, [], []⟩ (fr :: stack) roots]
  simp [domStep, domAppend]

theorem appendsNode_runTreeAux (txt : List Char) : ∀ (tags : List (List Char)),
    AppendsNode (wrappedToks tags txt)
      (tags.foldl (fun acc tg => XNode.elem tg [] [acc]) (XNode.text txt)) := by
  intro tags
  induction tags using List.reverseRecOn with
  | nil => exact appendsNode_text txt
  | append_singleton ts t ih =>
    rw [wrappedToks_append ts t txt]
    rw [show (ts ++ [t]).foldl (fun acc tg => XNode.elem tg [] [acc])
          (XNode.text txt)
        = XNode.elem t []
            [ts.foldl (fun acc tg => XNode.elem tg [] [acc]) (XNode.text txt)]
      from by simp [List.foldl_append]]
    exact appendsNode_wrap t ih

theorem appendsNode_runTree (r : InlineRun) :
    AppendsNode (wrappedToks (marksList r.marks) r.text) (runTree r) :=
  appendsNode_runTreeAux r.text (marksList r.marks)

theorem appendsNodes_inline (content : List InlineRun) :
    AppendsNodes (inlineToks content) (content.map runTree) := by
  induction content with
  | nil => exact appendsNodes_nil
  | cons r rs ih =>
    rw [inlineToks_cons, List.map_cons,
      show (runTree r :: rs.map runTree) = [runTree r] ++ rs.map runTree from rfl]
    exact appendsNodes_append (appendsNode_toNodes (appendsNode_runTree r)) ih

theorem appendsNode_block (b : Block) :
    AppendsNode (blockToks b) (blockElem b) := by
  intro fr stack roots
  rw [show blockToks b
      = XMLToken.tagOpen (typeOf b) (blockAttrsList b)
        :: (inlineToks b.content ++ [XMLToken.tagClose (typeOf b)]) from rfl]
  rw [List.foldl_cons]
  rw [show domStep (some ⟨fr :: stack, roots⟩)
        (XMLToken.tagOpen (typeOf b) (blockAttrsList b))
      = some ⟨(⟨typeOf b, blockAttrsList b, []⟩ : XFrame) :: fr :: stack, roots⟩
    from by simp [domStep]]
  rw [List.foldl_append]
  rw [appendsNodes_inline b.content ⟨typeOf b, blockAttrsList b, []⟩ (fr :: stack)
    roots]
  simp [domStep, domAppend, blockElem]

theorem appendsNodes_page (d : List Block) :
    AppendsNodes
      ((d.map (fun b => XMLToken.text ['\n'] :: blockToks b)).flatten
        ++ [XMLToken.text ['\n']])
      (pageChildrenAux d) := by
  induction d with
  | nil =>
    rw [show ((([] : List Block).map
            (fun b => XMLToken.text ['\n'] :: blockToks b)).flatten
          ++ [XMLToken.text ['\n']]) = [XMLToken.text ['\n']] from by simp]
    rw [show pageChildrenAux [] = [XNode.text ['\n']] from rfl]
    exact appendsNode_toNodes (appendsNode_text ['\n'])
  | cons b bs ih =>
    rw [show (((b :: bs).map (fun b => XMLToken.text ['\n'] :: blockToks b)).flatten
          ++ [XMLToken.text ['\n']])
        = ([XMLToken.text ['\n']] ++ blockToks b)
          ++ ((bs.map (fun b => XMLToken.text ['\n'] :: blockToks b)).flatten
            ++ [XMLToken.text ['\n']]) from by simp]
    rw [show pageChildrenAux (b :: bs)
        = ([XNode.text ['\n']] ++ [blockElem b]) ++ pageChildrenAux bs from by
      simp [pageChildrenAux]]
    exact appendsNodes_append
      (appendsNodes_append (appendsNode_toNodes (appendsNode_text ['\n']))
        (appendsNode_toNodes (appendsNode_block b))) ih

theorem domParse_serialize (d : List Block) (hd : validDoc d = true) :
    domParse (serializeDocToXML d) = some (pageTree d) := by
  unfold domParse
  rw [docLex d hd]
  have hfold : (pageToks d).foldl domStep (some ⟨[], []⟩)
      = some ⟨[], [pageTree d]⟩ := by
    rw [show pageToks d
        = XMLToken.tagOpen pageTag []
          :: (((d.map (fun b => XMLToken.text ['\n'] :: blockToks b)).flatten
              ++ [XMLToken.text ['\n']]) ++ [XMLToken.tagClose pageTag]) from by
      simp [pageToks]]
    rw [List.foldl_cons]
    rw [show domStep (some ⟨[], []⟩) (XMLToken.tagOpen pageTag [])
        = some ⟨[(⟨pageTag, [], []⟩ : XFrame)], []⟩ from by simp [domStep]]
    rw [List.foldl_append]
    rw [appendsNodes_page d ⟨pageTag, [], []⟩ [] []]
    simp [domStep, domAppend, pageTree]
  simp [hfold]

end Ambuda

namespace Ambuda

theorem elemChildren_pageChildrenAux (d : List Block) :
    elemChildren (pageChildrenAux d) = d.map blockElem := by
  induction d with
  | nil => rfl
  | cons b bs ih =>
    simp only [pageChildrenAux, elemChildren, List.filter_cons] at ih ⊢
    simp [isElemNode, blockElem, ih]

theorem getAttr_nil (nm : List Char) : getAttr [] nm = none := rfl

theorem getAttr_cons_hit (q : List Char × List Char)
    (l : List (List Char × List Char)) (nm : List Char) (h : q.1 = nm) :
    getAttr (q :: l) nm = some q.2 := by
  unfold getAttr
  rw [List.find?_cons_of_pos _ (by simp [h])]
  rfl

theorem getAttr_cons_skip (q : List Char × List Char)
    (l : List (List Char × List Char)) (nm : List Char) (h : q.1 ≠ nm) :
    getAttr (q :: l) nm = getAttr l nm := by
  unfold getAttr
  rw [List.find?_cons_of_neg _ (by simp [h])]

theorem getAttr_optSeg_skip (o : Option (List Char)) (nm nm2 : List Char)
    (hne : nm ≠ nm2) (tail : List (List Char × List Char)) :
    getAttr (optSeg o nm ++ tail) nm2 = getAttr tail nm2 := by
  cases o with
  | none => simp [optSeg]
  | some t =>
    by_cases ht : t = []
    · simp [optSeg, ht]
    · rw [show optSeg (some t) nm ++ tail = (nm, t) :: tail from by
        simp [optSeg, ht]]
      exact getAttr_cons_skip (nm, t) tail nm2 hne

theorem getAttr_mergeSeg (b : Block) (nm2 : List Char)
    (hne : mergeNextAttr ≠ nm2) : getAttr (mergeSeg b) nm2 = none := by
  cases hmn : b.merge_next
  · simp [mergeSeg, hmn, getAttr_nil]
  · rw [show mergeSeg b = [(mergeNextAttr, trueStr)] from by simp [mergeSeg, hmn]]
    rw [getAttr_cons_skip (mergeNextAttr, trueStr) [] nm2 hne]
    exact getAttr_nil nm2

theorem getAttr_optSeg_self (o : Option (List Char)) (nm : List Char)
    (h : o ≠ some []) (tail : List (List Char × List Char))
    (htail : getAttr tail nm = none) : getAttr (optSeg o nm ++ tail) nm = o := by
  cases o with
  | none => simpa [optSeg] using htail
  | some t =>
    have ht : t ≠ [] := fun hc => h (by rw [hc])
    rw [show optSeg (some t) nm ++ tail = (nm, t) :: tail from by
      simp [optSeg, ht]]
    rw [getAttr_cons_hit (nm, t) tail nm rfl]

theorem getAttr_blockAttrs_text (b : Block) (h : b.text ≠ some []) :
    getAttr (blockAttrsList b) textAttr = b.text := by
  unfold blockAttrsList
  refine getAttr_optSeg_self b.text textAttr h _ ?_
  rw [getAttr_optSeg_skip b.n nAttr textAttr (by decide) _,
    getAttr_optSeg_skip b.mark markAttr textAttr (by decide) _,
    getAttr_optSeg_skip b.lang langAttr textAttr (by decide) _]
  exact getAttr_mergeSeg b textAttr (by decide)

theorem getAttr_blockAttrs_n (b : Block) (h : b.n ≠ some []) :
    getAttr (blockAttrsList b) nAttr = b.n := by
  unfold blockAttrsList
  rw [getAttr_optSeg_skip b.text textAttr nAttr (by decide) _]
  refine getAttr_optSeg_self b.n nAttr h _ ?_
  rw [getAttr_optSeg_skip b.mark markAttr nAttr (by decide) _,
    getAttr_optSeg_skip b.lang langAttr nAttr (by decide) _]
  exact getAttr_mergeSeg b nAttr (by decide)

theorem getAttr_blockAttrs_mark (b : Block) (h : b.mark ≠ some []) :
    getAttr (blockAttrsList b) markAttr = b.mark := by
  unfold blockAttrsList
  rw [getAttr_optSeg_skip b.text textAttr markAttr (by decide) _,
    getAttr_optSeg_skip b.n nAttr markAttr (by decide) _]
  refine getAttr_optSeg_self b.mark markAttr h _ ?_
  rw [getAttr_optSeg_skip b.lang langAttr markAttr (by decide) _]
  exact getAttr_mergeSeg b markAttr (by decide)

theorem getAttr_blockAttrs_lang (b : Block) (h : b.lang ≠ some []) :
    getAttr (blockAttrsList b) langAttr = b.lang := by
  unfold blockAttrsList
  rw [getAttr_optSeg_skip b.text textAttr langAttr (by decide) _,
    getAttr_optSeg_skip b.n nAttr langAttr (by decide) _,
    getAttr_optSeg_skip b.mark markAttr langAttr (by decide) _]
  refine getAttr_optSeg_self b.lang langAttr h _ ?_
  exact getAttr_mergeSeg b langAttr (by decide)

theorem getAttr_blockAttrs_merge (b : Block) :
    getAttr (blockAttrsList b) mergeNextAttr
      = if b.merge_next then some trueStr else none := by
  unfold blockAttrsList
  rw [getAttr_optSeg_skip b.text textAttr mergeNextAttr (by decide) _,
    getAttr_optSeg_skip b.n nAttr mergeNextAttr (by decide) _,
    getAttr_optSeg_skip b.mark markAttr mergeNextAttr (by decide) _,
    getAttr_optSeg_skip b.lang langAttr mergeNextAttr (by decide) _]
  cases hmn : b.merge_next
  · simp [mergeSeg, hmn, getAttr_nil]
  · rw [show mergeSeg b = [(mergeNextAttr, trueStr)] from by simp [mergeSeg, hmn]]
    rw [getAttr_cons_hit (mergeNextAttr, trueStr) [] mergeNextAttr rfl]
    simp

end Ambuda

namespace Ambuda

theorem parseInlineNode_foldlWrap (txt : List Char) (htxt : txt ≠ []) :
    ∀ (tags : List (List Char)),
      (∀ tg ∈ tags, tg = errorTag ∨ tg = fixTag ∨ tg = refTag ∨ tg = flagTag) →
      ∀ (m : MarkSet),
        parseInlineNode m
            (tags.foldl (fun acc tg => XNode.elem tg [] [acc]) (XNode.text txt))
          = [⟨txt, tags.foldr (fun tg acc => addMark acc tg) m⟩] := by
  intro tags
  induction tags using List.reverseRecOn with
  | nil =>
    intro _ m
    simp [parseInlineNode, htxt]
  | append_singleton ts t ih =>
    intro hwf m
    have ht := hwf t (by simp)
    have hlow : lowerStr t = t := by
      rcases ht with rfl | rfl | rfl | rfl <;> decide
    have hmark : isMarkTag t = true := by
      rcases ht with rfl | rfl | rfl | rfl <;> decide
    rw [show (ts ++ [t]).foldl (fun acc tg => XNode.elem tg [] [acc])
          (XNode.text txt)
        = XNode.elem t []
            [ts.foldl (fun acc tg => XNode.elem tg [] [acc]) (XNode.text txt)]
      from by simp [List.foldl_append]]
    simp only [parseInlineNode, hlow, hmark, if_true]
    simp only [parseInlineNodes]
    rw [ih (fun tg htg => hwf tg (by simp [htg])) (addMark m t)]
    rw [List.foldr_append]
    simp [List.foldr]

theorem marksResolve (m : MarkSet) :
    (marksList m).foldr (fun tg acc => addMark acc tg) noMarks = m := by
  obtain ⟨e, f, r, fl⟩ := m
  cases e <;> cases f <;> cases r <;> cases fl <;> decide

theorem parseInlineNode_runTree (r : InlineRun) (hr : r.text ≠ []) :
    parseInlineNode noMarks (runTree r) = [r] := by
  rw [show runTree r
      = (marksList r.marks).foldl (fun acc tg => XNode.elem tg [] [acc])
          (XNode.text r.text) from rfl]
  rw [parseInlineNode_foldlWrap r.text hr (marksList r.marks)
    (fun tg htg => marksList_mem_cases r.marks tg htg) noMarks]
  rw [marksResolve r.marks]

theorem parseInlineContent_map (content : List InlineRun)
    (h : ∀ r ∈ content, r.text ≠ []) :
    parseInlineContent (content.map runTree) = content := by
  unfold parseInlineContent
  induction content with
  | nil => rfl
  | cons r rs ih =>
    simp only [List.map_cons, parseInlineNodes]
    rw [parseInlineNode_runTree r (h r (by simp)),
      ih (fun q hq => h q (by simp [hq]))]
    rfl

theorem normalizeRuns_id (content : List InlineRun)
    (h : adjacentDistinct content = true) : normalizeRuns content = content := by
  induction content with
  | nil => rfl
  | cons r rest ih =>
    have h2 := adjacentDistinct_tail r rest h
    simp only [normalizeRuns]
    rw [ih h2]
    cases rest with
    | nil => rfl
    | cons r2 rest2 =>
      have hne : r.marks ≠ r2.marks := by
        simp only [adjacentDistinct, Bool.and_eq_true, decide_eq_true_eq] at h
        exact h.1
      simp [hne]

theorem block_ext {x y : Block} (h1 : x.type = y.type) (h2 : x.text = y.text)
    (h3 : x.n = y.n) (h4 : x.mark = y.mark) (h5 : x.lang = y.lang)
    (h6 : x.merge_next = y.merge_next) (h7 : x.content = y.content) : x = y := by
  cases x
  cases y
  congr 1

theorem blockOfElem_blockElem (b : Block) (hb : validBlock b = true) :
    blockOfElem (blockElem b) = b := by
  obtain ⟨htyne, htync, htylow, htx, hn, hmk, hlg, htexts, hdist⟩ :=
    validBlock_facts b hb
  have hty : typeOf b = b.type := by simp [typeOf, htyne]
  refine block_ext ?_ ?_ ?_ ?_ ?_ ?_ ?_
  · show lowerStr (typeOf b) = b.type
    rw [hty, htylow]
  · show getAttr (blockAttrsList b) textAttr = b.text
    exact getAttr_blockAttrs_text b htx
  · show getAttr (blockAttrsList b) nAttr = b.n
    exact getAttr_blockAttrs_n b hn
  · show getAttr (blockAttrsList b) markAttr = b.mark
    exact getAttr_blockAttrs_mark b hmk
  · show getAttr (blockAttrsList b) langAttr = b.lang
    exact getAttr_blockAttrs_lang b hlg
  · show decide (getAttr (blockAttrsList b) mergeNextAttr = some trueStr)
        = b.merge_next
    rw [getAttr_blockAttrs_merge b]
    cases hmn : b.merge_next <;> simp [trueStr]
  · show normalizeRuns (parseInlineContent (b.content.map runTree)) = b.content
    rw [parseInlineContent_map b.content htexts, normalizeRuns_id b.content hdist]

end Ambuda

namespace Ambuda

theorem trimStr_cons_ne (c : Char) (h : isWS c = false) (rest : List Char) :
    trimStr (c :: rest) ≠ [] := by
  intro hcon
  unfold trimStr at hcon
  rw [show (c :: rest).dropWhile isWS = c :: rest from by
    simp [List.dropWhile_cons, h]] at hcon
  have h2 : (c :: rest).reverse.dropWhile isWS = [] := by simpa using hcon
  have h3 := List.dropWhile_eq_nil_iff.mp h2 c (by simp)
  rw [h] at h3
  exact Bool.false_ne_true h3

theorem parseXMLToDoc_serializeDocToXML (d : List Block)
    (hd : validDoc d = true) :
    parseXMLToDoc (serializeDocToXML d) = Except.ok d := by
  obtain ⟨hdne, hall⟩ := validDoc_facts d hd
  have htrim : trimStr (serializeDocToXML d) ≠ [] := by
    obtain ⟨t, ht⟩ : ∃ t, serializeDocToXML d = '<' :: t := ⟨_, rfl⟩
    rw [ht]
    exact trimStr_cons_ne '<' (by decide) t
  unfold parseXMLToDoc
  rw [if_neg htrim]
  rw [domParse_serialize d hd]
  simp only [pageTree]
  rw [if_pos (show lowerStr pageTag = pageTag from by decide)]
  rw [elemChildren_pageChildrenAux d]
  have hmap : (d.map blockElem).map blockOfElem = d := by
    rw [List.map_map]
    have hcongr : ∀ b ∈ d, (blockOfElem ∘ blockElem) b = b := by
      intro b hb
      exact blockOfElem_blockElem b (List.all_eq_true.mp hall b hb)
    rw [List.map_congr_left hcongr]
    simp
  rw [hmap]
  cases d with
  | nil => exact absurd rfl hdne
  | cons b bs => rfl

end Ambuda

namespace Ambuda

/-- C2 (amended): parse after serialize is the identity on documents of the
custom block schema in ProseMirror normal form, that is, nonempty documents
whose blocks have a nonempty lowercase XML-name type, attributes that are
absent or nonempty, and nonempty text runs with distinct adjacent mark sets;
for every such document, parseXMLToDoc applied to serializeDocToXML of the
document returns exactly the document. -/
theorem parse_serialize_roundtrip (d : List Block) (h : validDoc d = true) :
    parseXMLToDoc (serializeDocToXML d) = Except.ok d :=
  parseXMLToDoc_serializeDocToXML d h

theorem parse_serialize_roundtrip_witness :
    validDoc
        [⟨['p'], some ['a'], some ['1'], none, none, true,
          [⟨['h', 'i'], noMarks⟩, ⟨['x'], ⟨true, false, false, true⟩⟩]⟩,
         ⟨['v', 'e', 'r', 's', 'e'], none, none, none, none, false, []⟩] = true ∧
    parseXMLToDoc (serializeDocToXML
        [⟨['p'], some ['a'], some ['1'], none, none, true,
          [⟨['h', 'i'], noMarks⟩, ⟨['x'], ⟨true, false, false, true⟩⟩]⟩,
         ⟨['v', 'e', 'r', 's', 'e'], none, none, none, none, false, []⟩])
      = Except.ok
        [⟨['p'], some ['a'], some ['1'], none, none, true,
          [⟨['h', 'i'], noMarks⟩, ⟨['x'], ⟨true, false, false, true⟩⟩]⟩,
         ⟨['v', 'e', 'r', 's', 'e'], none, none, none, none, false, []⟩] :=
  ⟨by decide,
    parse_serialize_roundtrip
      [⟨['p'], some ['a'], some ['1'], none, none, true,
        [⟨['h', 'i'], noMarks⟩, ⟨['x'], ⟨true, false, false, true⟩⟩]⟩,
       ⟨['v', 'e', 'r', 's', 'e'], none, none, none, none, false, []⟩]
      (by decide)⟩

/-- C1 (amended): serialize after parse reproduces the input on the strings
the editor itself produces: for every string s that is the serialization of
some document in ProseMirror normal form (validDoc), parseXMLToDoc s
succeeds and serializing its result yields s again, character for
character. -/
theorem serialize_after_parse (s : List Char) (d : List Block)
    (hd : validDoc d = true) (hs : s = serializeDocToXML d) :
    ∃ d2, parseXMLToDoc s = Except.ok d2 ∧ serializeDocToXML d2 = s :=
  ⟨d, by rw [hs]; exact parseXMLToDoc_serializeDocToXML d hd, hs.symm⟩

theorem serialize_after_parse_witness :
    validDoc [⟨['p'], none, none, some ['s', 'a'], none, false,
        [⟨['a', 'b'], noMarks⟩]⟩] = true ∧
    ∃ d2,
      parseXMLToDoc (serializeDocToXML
          [⟨['p'], none, none, some ['s', 'a'], none, false,
            [⟨['a', 'b'], noMarks⟩]⟩]) = Except.ok d2 ∧
      serializeDocToXML d2
        = serializeDocToXML
            [⟨['p'], none, none, some ['s', 'a'], none, false,
              [⟨['a', 'b'], noMarks⟩]⟩] :=
  ⟨by decide,
    serialize_after_parse
      (serializeDocToXML
        [⟨['p'], none, none, some ['s', 'a'], none, false,
          [⟨['a', 'b'], noMarks⟩]⟩])
      [⟨['p'], none, none, some ['s', 'a'], none, false,
        [⟨['a', 'b'], noMarks⟩]⟩]
      (by decide) rfl⟩

end Ambuda
